import Mathlib

/-!
Verification development for the Second_Brain repository.

The two algorithmically interesting components are shallowly embedded here:

* the sentence-aware chunker of `src/agents/ingest_agent.py`
  (`_split_into_sentences`, `_split_long_text`,
  `_aggregate_sentences_to_chunks`, `process_text`), and
* the lexical fallback ranker of `src/agents/retriever_agent.py`
  (`_local_text_search`).

Python strings are modelled as `List Char` (character-based, as the code's
length bound is character-based).  Whitespace and `\w` classes are modelled
at ASCII granularity, which is the granularity every claim and test of the
repository exercises.  The `heapq` collaborator is modelled at multiset
level by its documented contract: `heappushpop` inserts the new item and
removes the minimum of the resulting collection, and
`nlargest(len(heap), heap)` sorts the collection in descending order.
All comparisons are on `(score, tie)` pairs; the tie counter is unique per
inserted item, so the payload is never compared (which is exactly why the
Python code attaches the counter).
-/

namespace SecondBrain

/-- Whitespace, as recognised by Python `str.strip()` and by the regex
class `\s` (ASCII range). -/
def isWS (c : Char) : Bool :=
  c = ' ' || c = '\t' || c = '\n' || c = '\r' || c = Char.ofNat 11 || c = Char.ofNat 12

/-- Sentence-final punctuation of the split regex `(?<=[.!?])\s+`. -/
def isPunct (c : Char) : Bool :=
  c = '.' || c = '!' || c = '?'

/-- Python `str.strip()`: remove leading and trailing whitespace. -/
def strip (l : List Char) : List Char :=
  ((l.dropWhile isWS).reverse.dropWhile isWS).reverse

/-- Python `" ".join(pieces)`: the pieces separated by single spaces. -/
def joinSpace : List (List Char) → List Char
  | [] => []
  | [a] => a
  | a :: rest => a ++ ' ' :: joinSpace rest

/-- Scanner for `re.split(r'(?<=[.!?])\s+', text)`.
State: `skipping` is true while consuming the `\s+` run of a match,
`lastP` records whether the previous character was in `[.!?]`, and `cur`
is the current piece, reversed. -/
def splitSentGo : Bool → Bool → List Char → List Char → List (List Char)
  | _, _, cur, [] => [cur.reverse]
  | true, _, cur, c :: rest =>
    if isWS c then splitSentGo true false cur rest
    else splitSentGo false (isPunct c) (c :: cur) rest
  | false, lastP, cur, c :: rest =>
    if lastP && isWS c then cur.reverse :: splitSentGo true false [] rest
    else splitSentGo false (isPunct c) (c :: cur) rest

/-- `re.split(r'(?<=[.!?])\s+', text)`. -/
def splitSentences (t : List Char) : List (List Char) :=
  splitSentGo false false [] t

/-- `IngestAgent._split_into_sentences`:
`sentences = _SENTENCE_SPLIT_RE.split(text.strip())`;
`return [s.strip() for s in sentences if s and s.strip()]`. -/
def splitIntoSentences (t : List Char) : List (List Char) :=
  ((splitSentences (strip t)).filter
      (fun s => !s.isEmpty && !(strip s).isEmpty)).map strip

/-- Python `text.rfind(" ", start, fin)` (as an `Option` instead of `-1`):
the largest index `i` with `start ≤ i < fin`, `i < |t|` and `t[i] = ' '`. -/
def rfindSpace (t : List Char) (start fin : Nat) : Option Nat :=
  ((List.range (min fin t.length)).filter
      (fun i => start ≤ i && t.getD i 'x' = ' ')).getLast?

/-- Python slice `t[start:fin]` (with the usual clamping). -/
def slice (t : List Char) (start fin : Nat) : List Char :=
  (t.take fin).drop start

/-- One window computation of `_split_long_text`'s loop:
`end = min(start + chunk_size_chars, n)`, then backtrack to the last
space strictly after `start` when `end < n`. -/
def nextEnd (cs : Nat) (t : List Char) (start : Nat) : Nat :=
  let n := t.length
  let e := min (start + cs) n
  if e < n then
    match rfindSpace t start e with
    | some ls => if start < ls then ls else e
    | none => e
  else e

/-- The loop of `_split_long_text`, fuelled (Python runs an unbounded
`while start < n`; with `chunk_size_chars ≥ 1` a fuel of `n` suffices,
which is proved below). -/
def splitLongGo (cs : Nat) (t : List Char) : Nat → Nat → List (List Char)
  | 0, _ => []
  | fuel + 1, start =>
    if start < t.length then
      let e := nextEnd cs t start
      let part := strip (slice t start e)
      if part.isEmpty then splitLongGo cs t fuel e
      else part :: splitLongGo cs t fuel e
    else []

/-- `IngestAgent._split_long_text`. -/
def splitLongText (cs : Nat) (t : List Char) : List (List Char) :=
  if t.length ≤ cs then [t] else splitLongGo cs t t.length 0

/-- One chunk record; `text`/`chunkIndex`/`charLen` model the record's
`text` and `meta["chunk_index"]`, `meta["char_len"]` fields.  (`id`,
`source_id` and `page` carry no logic relevant to the claims: `id` is
random, the other two are constant per call.) -/
structure Chunk where
  text : List Char
  chunkIndex : Nat
  charLen : Nat
deriving DecidableEq, Repr

/-- State of the aggregation loop of `_aggregate_sentences_to_chunks`:
the emitted `chunks`, the sentence `buffer`, the running `buffer_len`
and the next chunk index `idx`. -/
structure AggSt where
  chunks : List Chunk
  buffer : List (List Char)
  bufferLen : Nat
  idx : Nat
deriving Repr

/-- Flush the buffer: `text = " ".join(buffer).strip()`; if `text` is
non-empty, append it as a chunk and advance `idx`; the buffer is reset
either way. -/
def emitBuffer (st : AggSt) : AggSt :=
  let text := strip (joinSpace st.buffer)
  if text.isEmpty then ⟨st.chunks, [], 0, st.idx⟩
  else ⟨st.chunks ++ [⟨text, st.idx, text.length⟩], [], 0, st.idx + 1⟩

/-- Emit each slice of an oversized sentence as its own chunk. -/
def emitParts (st : AggSt) (parts : List (List Char)) : AggSt :=
  parts.foldl
    (fun s p => ⟨s.chunks ++ [⟨p, s.idx, p.length⟩], s.buffer, s.bufferLen, s.idx + 1⟩)
    st

/-- The body of the `for sent in sentences` loop of
`_aggregate_sentences_to_chunks`. -/
def aggStep (cs : Nat) (st : AggSt) (sent : List Char) : AggSt :=
  if cs < sent.length then
    emitParts (emitBuffer st) (splitLongText cs sent)
  else if st.bufferLen + sent.length + 1 ≤ cs then
    ⟨st.chunks, st.buffer ++ [sent], st.bufferLen + sent.length + 1, st.idx⟩
  else
    let st1 := emitBuffer st
    ⟨st1.chunks, [sent], sent.length + 1, st1.idx⟩

/-- The chunk list of `_aggregate_sentences_to_chunks` right before the
small-chunk merge pass (loop over the sentences, then flush of the final
buffer). -/
def aggregateChunksPre (cs : Nat) (sentences : List (List Char)) : List Chunk :=
  (emitBuffer (sentences.foldl (aggStep cs) ⟨[], [], 0, 0⟩)).chunks

/-- Absorb `c` into `prev`:
`prev["text"] = (prev["text"] + " " + c["text"]).strip()`, recompute
`char_len`, keep `prev`'s `chunk_index`. -/
def mergeChunk (prev c : Chunk) : Chunk :=
  ⟨strip (prev.text ++ ' ' :: c.text), prev.chunkIndex,
    (strip (prev.text ++ ' ' :: c.text)).length⟩

/-- The small-chunk merge pass, with the already-merged output kept in
reverse order (`prev` is Python's `merged[-1]`). -/
def mergeSmallGo (cs minc : Nat) : List Chunk → List Chunk → List Chunk
  | acc, [] => acc.reverse
  | [], c :: rest => mergeSmallGo cs minc [c] rest
  | prev :: accT, c :: rest =>
    if prev.charLen < minc && prev.charLen + 1 + c.charLen ≤ cs then
      mergeSmallGo cs minc (mergeChunk prev c :: accT) rest
    else
      mergeSmallGo cs minc (c :: prev :: accT) rest

/-- The merge pass of `_aggregate_sentences_to_chunks` (lines 114-128). -/
def mergeSmallChunks (cs minc : Nat) (chunks : List Chunk) : List Chunk :=
  mergeSmallGo cs minc [] chunks

/-- `IngestAgent._aggregate_sentences_to_chunks`. -/
def aggregateSentencesToChunks (cs minc : Nat) (sentences : List (List Char)) : List Chunk :=
  mergeSmallChunks cs minc (aggregateChunksPre cs sentences)

/-- `IngestAgent.process_text` (the chunker entry point): sentence
split; if no sentences survive, the whole input is returned verbatim as
one chunk with index 0; otherwise aggregate and merge. -/
def processText (cs minc : Nat) (t : List Char) : List Chunk :=
  let sentences := splitIntoSentences t
  if sentences.isEmpty then [⟨t, 0, t.length⟩]
  else aggregateSentencesToChunks cs minc sentences

/-! ## The lexical fallback ranker (`RetrieverAgent._local_text_search`) -/

/-- ASCII `str.lower()`. -/
def toLowerAscii (c : Char) : Char :=
  if 'A' ≤ c && c ≤ 'Z' then Char.ofNat (c.toNat + 32) else c

/-- Python `s.lower()` on our character lists. -/
def lowerList (l : List Char) : List Char :=
  l.map toLowerAscii

/-- Does `hay` start with `needle`? -/
def startsWithL : List Char → List Char → Bool
  | [], _ => true
  | _ :: _, [] => false
  | a :: as, b :: bs => a = b && startsWithL as bs

/-- Fuelled scanner for Python `hay.count(needle)` with a non-empty
needle: scan left to right, counting non-overlapping occurrences.  Each
step consumes at least one character, so fuel `|hay|` is exact. -/
def pyCountGo (needle : List Char) : Nat → List Char → Nat
  | 0, _ => 0
  | _ + 1, [] => 0
  | fuel + 1, h :: hs =>
    if startsWithL needle (h :: hs) then
      1 + pyCountGo needle fuel (List.drop (needle.length - 1) hs)
    else
      pyCountGo needle fuel hs

/-- Python `hay.count(needle)`: the number of non-overlapping
occurrences of `needle` in `hay`, scanning from the left.  (For the
empty needle Python returns `len(hay) + 1`; the ranker never calls it
with an empty needle.) -/
def pyCount (hay needle : List Char) : Nat :=
  if needle.isEmpty then hay.length + 1 else pyCountGo needle hay.length hay

/-- A word character of the regex class `\w` (ASCII range), used by
`re.findall(r"\w+", q)`. -/
def isWordChar (c : Char) : Bool :=
  ('a' ≤ c && c ≤ 'z') || ('A' ≤ c && c ≤ 'Z') || ('0' ≤ c && c ≤ '9') || c = '_'

/-- Scanner for `re.findall(r"\w+", q)`: maximal runs of word characters
(`cur` is the current run, reversed). -/
def wordTokensGo : List Char → List Char → List (List Char)
  | cur, [] => if cur.isEmpty then [] else [cur.reverse]
  | cur, c :: rest =>
    if isWordChar c then wordTokensGo (c :: cur) rest
    else if cur.isEmpty then wordTokensGo [] rest
    else cur.reverse :: wordTokensGo [] rest

/-- `terms = re.findall(r"\w+", q)`. -/
def wordTokens (l : List Char) : List (List Char) :=
  wordTokensGo [] l

/-- A corpus item as the ranker sees it after JSON loading: its `text`,
plus an abstract identity `cid` standing for the remaining payload
(`id` and `meta`), which the ranker copies into hits but never reads. -/
structure RChunk where
  text : List Char
  cid : Nat
deriving DecidableEq, Repr

/-- The scoring loop body: `score = text.count(q) * 10`, then
`score += text.count(t)` for each term (`text` already lower-cased). -/
def scoreOf (q : List Char) (terms : List (List Char)) (text : List Char) : Nat :=
  terms.foldl (fun a t => a + pyCount text t) (pyCount text q * 10)

/-- A heap entry `(score, tie, chunk)`. -/
structure HeapItem where
  score : Nat
  tie : Nat
  chunk : RChunk
deriving DecidableEq, Repr

/-- Tuple comparison `(score, tie, _) < (score, tie, _)` as Python
performs it on heap entries.  Tie values of distinct entries are
distinct (the `itertools.count()` invariant), so the third component is
never reached; this comparison is total on every heap the code builds. -/
def itemLtB (a b : HeapItem) : Bool :=
  a.score < b.score || (a.score = b.score && a.tie < b.tie)

/-- The minimum of `x :: heap` under the `(score, tie)` order. -/
def heapMinItem (x : HeapItem) (heap : List HeapItem) : HeapItem :=
  heap.foldl (fun m y => if itemLtB y m then y else m) x

/-- Remove the first occurrence of `m`. -/
def eraseFirstItem : List HeapItem → HeapItem → List HeapItem
  | [], _ => []
  | x :: xs, m => if x = m then xs else x :: eraseFirstItem xs m

/-- `heapq.heappushpop(heap, item)` at multiset level (its documented
contract): add `item`, then remove the smallest element. -/
def heapPushPop (heap : List HeapItem) (item : HeapItem) : List HeapItem :=
  eraseFirstItem (item :: heap) (heapMinItem item heap)

/-- State of the corpus scan: the bounded heap and the tie counter. -/
structure ScanSt where
  heap : List HeapItem
  tieCtr : Nat
deriving Repr

/-- The body of the `for ch in chunks` loop of `_local_text_search`:
skip empty texts, score, skip score `0` (`score <= 0` on these
non-negative counts), then `heappush` while below capacity, else
`heappushpop`.  The tie counter advances exactly when an item is
inserted (`next(tie_counter)` sits after both `continue`s). -/
def scanStep (q : List Char) (terms : List (List Char)) (k : Nat)
    (st : ScanSt) (ch : RChunk) : ScanSt :=
  let text := lowerList ch.text
  if text.isEmpty then st
  else
    let score := scoreOf q terms text
    if score = 0 then st
    else
      let item : HeapItem := ⟨score, st.tieCtr, ch⟩
      let heap := if st.heap.length < k then item :: st.heap else heapPushPop st.heap item
      ⟨heap, st.tieCtr + 1⟩

/-- Descending `(score, tie)` order used to present the heap:
`a` may precede `b` iff `(b.score, b.tie) ≤ (a.score, a.tie)`
lexicographically.  `heapq.nlargest(len(heap), heap)` sorts the heap's
entries in descending tuple order. -/
def itemDesc (a b : HeapItem) : Prop :=
  b.score < a.score ∨ (b.score = a.score ∧ b.tie ≤ a.tie)

instance : DecidableRel itemDesc := fun a b => by
  unfold itemDesc; infer_instance

/-- `heapq.nlargest(len(heap), heap)`: the heap contents in descending
`(score, tie)` order. -/
def heapToSortedDesc (heap : List HeapItem) : List HeapItem :=
  List.insertionSort itemDesc heap

/-- `_local_text_search`, with the scored entries kept: `None` corpus
models `not os.path.exists(DATA_DIR)` (return `[]`); a `some` corpus is
the already-materialized chunk sequence in file-enumeration order
(loading and JSON parsing are collaborators).  `c0` is the start value
of the tie counter (the code always starts `itertools.count()` at 0). -/
def searchAnnotatedFrom (c0 : Nat) (corpus : Option (List RChunk))
    (query : List Char) (k : Nat) : List HeapItem :=
  match corpus with
  | none => []
  | some chunks =>
    let q := lowerList (strip query)
    if q.isEmpty then []
    else
      let terms := wordTokens q
      let st := chunks.foldl (scanStep q terms k) ⟨[], c0⟩
      heapToSortedDesc st.heap

/-- The scored entries of `_local_text_search` (tie counter from 0, as
in the code). -/
def searchAnnotated (corpus : Option (List RChunk)) (query : List Char) (k : Nat) :
    List HeapItem :=
  searchAnnotatedFrom 0 corpus query k

/-- `RetrieverAgent._local_text_search`: the returned hit sequence
(`results = [t[2] for t in largest]`; an empty heap gives `[]`). -/
def localTextSearch (corpus : Option (List RChunk)) (query : List Char) (k : Nat) :
    List RChunk :=
  (searchAnnotated corpus query k).map (·.chunk)

/-- Characters of a string, for concrete inputs. -/
def lc (s : String) : List Char := s.toList

/-- The non-whitespace characters of a text, in order. -/
def filterNW (t : List Char) : List Char :=
  t.filter (fun c => !isWS c)

/-! ## Specification-side predicates and concrete inputs

An "atom" is a sentence or an oversized-sentence slice: non-empty,
without leading/trailing whitespace, and with no sentence boundary
(a `[.!?]` character immediately followed by whitespace) inside.  Every
chunk text the aggregation emits is a space-join of atoms; this is the
invariant behind the size bound, the merge pass, and re-chunking. -/

/-- No sentence-boundary pattern between adjacent characters. -/
def noPW (x y : Char) : Prop := ¬(isPunct x = true ∧ isWS y = true)

/-- A sentence or slice as the aggregation consumes it. -/
def NiceAtom (a : List Char) : Prop :=
  a ≠ [] ∧ (∀ c, a.head? = some c → isWS c = false) ∧
    (∀ c, a.getLast? = some c → isWS c = false) ∧ List.Chain' noPW a

/-- A chunk text: a space-join of a non-empty list of atoms. -/
def IsJoin (t : List Char) : Prop :=
  ∃ atoms, atoms ≠ [] ∧ (∀ a ∈ atoms, NiceAtom a) ∧ t = joinSpace atoms

/-- Well-formedness of an emitted chunk: `char_len` caches the text
length, the text respects the size bound, and it is a join of atoms. -/
def ChunkWF (cs : Nat) (ch : Chunk) : Prop :=
  ch.charLen = ch.text.length ∧ ch.text.length ≤ cs ∧ IsJoin ch.text

/-- Invariant of the aggregation state: chunks are well-formed with
contiguous indices `0..idx-1`, and `buffer_len` is the length of the
joined buffer plus one, never above `chunk_size_chars + 1`. -/
def AggWF (cs : Nat) (st : AggSt) : Prop :=
  (∀ ch ∈ st.chunks, ChunkWF cs ch) ∧
  (st.chunks.map Chunk.chunkIndex = List.range st.idx) ∧
  (st.buffer = [] → st.bufferLen = 0) ∧
  (st.buffer ≠ [] →
    st.bufferLen = (joinSpace st.buffer).length + 1 ∧ st.bufferLen ≤ cs + 1) ∧
  (∀ a ∈ st.buffer, NiceAtom a)

/-- The relation the merge pass establishes between adjacent output
chunks: the earlier one is not both small and mergeable with the
later. -/
def mergeOK (cs minc : Nat) (a b : Chunk) : Prop :=
  ¬(a.charLen < minc ∧ a.charLen + 1 + b.charLen ≤ cs)

/-- The condition under which a run of chunks fully cascade-merges into
its first chunk: before each absorption the accumulated chunk is still
below `min_chunk_chars` AND absorbing stays within `chunk_size_chars`. -/
def cascadeOKB (cs minc : Nat) : Chunk → List Chunk → Bool
  | _, [] => true
  | prev, c :: rest =>
    (decide (prev.charLen < minc) && decide (prev.charLen + 1 + c.charLen ≤ cs)) &&
      cascadeOKB cs minc (mergeChunk prev c) rest

/-- The text content the aggregation state owns: emitted chunks plus
the pending buffer. -/
def aggContent (st : AggSt) : List Char :=
  (st.chunks.map Chunk.text).flatten ++ joinSpace st.buffer

/-- The `lastP` flag after scanning a segment. -/
def aLastP (a : List Char) (lastP : Bool) : Bool :=
  match a.getLast? with
  | some c => isPunct c
  | none => lastP

/-- Invariant of the corpus scan: every heap entry carries the score of
its chunk (positive, with non-empty text) and a tie below the counter,
and all ties are distinct. -/
def ScanWF (q : List Char) (terms : List (List Char)) (st : ScanSt) : Prop :=
  (∀ it ∈ st.heap, it.score = scoreOf q terms (lowerList it.chunk.text) ∧
      0 < it.score ∧ it.chunk.text ≠ [] ∧ it.tie < st.tieCtr) ∧
  (st.heap.map HeapItem.tie).Nodup

/-- Strictly descending `(score, tie)` order: among equal scores the
larger tie — the LATER-encountered candidate — comes first. -/
def strictDesc (a b : HeapItem) : Prop :=
  b.score < a.score ∨ (b.score = a.score ∧ b.tie < a.tie)

/-- Shift every tie by a constant. -/
def tieShift (c0 : Nat) (it : HeapItem) : HeapItem :=
  ⟨it.score, it.tie + c0, it.chunk⟩

/-- The corpus used in the brown-fox acceptance example of the spec. -/
def brownCorpus : List RChunk :=
  [⟨lc "The quick brown fox jumps", 1⟩, ⟨lc "hello world", 2⟩]

/-- The input used to refute C2 and C6: it aggregates into three chunks
`"Cc."`, `"a"`, `"b."` of lengths 3, 1, 2 (the middle two produced by
the oversized-sentence slicer on a 33-character sentence). -/
def tinyChunksInput : List Char := lc "Cc. a" ++ List.replicate 30 ' ' ++ lc "b."

/-- The input used to refute C3: it chunks into a single merged chunk
whose text has length exactly `chunk_size_chars = 20`. -/
def boundaryChunkInput : List Char := lc "Cc. a" ++ List.replicate 30 ' ' ++ lc "b. Dd eeee. Ff"

instance : IsTotal HeapItem itemDesc :=
  ⟨by intro a b; unfold itemDesc; omega⟩

instance : IsTrans HeapItem itemDesc :=
  ⟨by intro a b c; unfold itemDesc; omega⟩

/-! ## Basic facts about the window computation of `_split_long_text` -/

theorem mem_of_getLastEq {α : Type} {l : List α} {x : α} (h : l.getLast? = some x) :
    x ∈ l := by
  obtain ⟨hne, rfl⟩ := List.mem_getLast?_eq_getLast h
  exact List.getLast_mem hne

theorem rfindSpace_bounds {t : List Char} {start fin ls : Nat}
    (h : rfindSpace t start fin = some ls) : start ≤ ls ∧ ls < fin ∧ ls < t.length := by
  have hmem : ls ∈ (List.range (min fin t.length)).filter
      (fun i => start ≤ i && t.getD i 'x' = ' ') := by
    unfold rfindSpace at h
    exact mem_of_getLastEq h
  rw [List.mem_filter, List.mem_range] at hmem
  obtain ⟨hr, hb⟩ := hmem
  simp only [Bool.and_eq_true, decide_eq_true_eq] at hb
  omega

theorem nextEnd_lt (cs : Nat) (t : List Char) (start : Nat)
    (hcs : 1 ≤ cs) (hs : start < t.length) : start < nextEnd cs t start := by
  unfold nextEnd
  simp only
  split
  · split
    · next ls h =>
      split
      · omega
      · omega
    · omega
  · omega

theorem nextEnd_le_len (cs : Nat) (t : List Char) (start : Nat) :
    nextEnd cs t start ≤ t.length := by
  unfold nextEnd
  simp only
  split
  · split
    · next ls h =>
      have := rfindSpace_bounds h
      split
      · omega
      · omega
    · omega
  · omega

theorem nextEnd_le_window (cs : Nat) (t : List Char) (start : Nat) :
    nextEnd cs t start ≤ start + cs := by
  unfold nextEnd
  simp only
  split
  · next hlt =>
    split
    · next ls h =>
      have := rfindSpace_bounds h
      split
      · omega
      · omega
    · omega
  · omega

theorem nextEnd_zero (t : List Char) (start : Nat) (hs : start < t.length) :
    nextEnd 0 t start = start := by
  unfold nextEnd
  simp only [Nat.add_zero]
  have hmin : min start t.length = start := by omega
  rw [hmin, if_pos hs]
  cases h : rfindSpace t start start with
  | none => rfl
  | some ls =>
    have := rfindSpace_bounds h
    exfalso
    omega

theorem splitLongGo_fuel (cs : Nat) (t : List Char) (hcs : 1 ≤ cs) :
    ∀ f1 f2 start, t.length - start ≤ f1 → t.length - start ≤ f2 →
      splitLongGo cs t f1 start = splitLongGo cs t f2 start := by
  intro f1
  induction f1 with
  | zero =>
    intro f2 start h1 h2
    have hs : ¬ start < t.length := by omega
    cases f2 with
    | zero => rfl
    | succ f2 => simp [splitLongGo, hs]
  | succ f1 ih =>
    intro f2 start h1 h2
    cases f2 with
    | zero =>
      have hs : ¬ start < t.length := by omega
      simp [splitLongGo, hs]
    | succ f2 =>
      simp only [splitLongGo]
      split
      · next hs =>
        have hprog := nextEnd_lt cs t start hcs hs
        have hrec := ih f2 (nextEnd cs t start) (by omega) (by omega)
        rw [hrec]
      · rfl

/-- `strip` only removes whitespace, and only at the two ends. -/
theorem strip_decomp (l : List Char) :
    ∃ pre suf, l = pre ++ strip l ++ suf ∧
      (∀ c ∈ pre, isWS c = true) ∧ (∀ c ∈ suf, isWS c = true) := by
  set m := l.dropWhile isWS with hm
  refine ⟨l.takeWhile isWS, (m.reverse.takeWhile isWS).reverse, ?_, ?_, ?_⟩
  · unfold strip
    rw [← hm]
    have h1 : l.takeWhile isWS ++ m = l := List.takeWhile_append_dropWhile isWS l
    have h2 : m.reverse.takeWhile isWS ++ m.reverse.dropWhile isWS = m.reverse :=
      List.takeWhile_append_dropWhile isWS m.reverse
    have h3 : (m.reverse.dropWhile isWS).reverse ++ (m.reverse.takeWhile isWS).reverse
        = m := by
      rw [← List.reverse_append, h2, List.reverse_reverse]
    rw [List.append_assoc, h3, h1]
  · intro c hc
    exact List.mem_takeWhile_imp hc
  · intro c hc
    rw [List.mem_reverse] at hc
    exact List.mem_takeWhile_imp hc

theorem strip_sublist (l : List Char) : List.Sublist (strip l) l := by
  obtain ⟨pre, suf, hd, -, -⟩ := strip_decomp l
  conv_rhs => rw [hd, List.append_assoc]
  exact (List.sublist_append_left (strip l) suf).trans (List.sublist_append_right pre _)

theorem strip_within (l : List Char) : List.IsInfix (strip l) l := by
  obtain ⟨pre, suf, hd, -, -⟩ := strip_decomp l
  exact ⟨pre, suf, hd.symm⟩

theorem length_strip_le (l : List Char) : (strip l).length ≤ l.length :=
  (strip_sublist l).length_le

theorem length_slice_le (t : List Char) (start fin : Nat) :
    (slice t start fin).length ≤ fin - start := by
  unfold slice
  simp only [List.length_drop, List.length_take]
  omega

theorem splitLongGo_parts (cs : Nat) (t : List Char) :
    ∀ f start p, p ∈ splitLongGo cs t f start → p ≠ [] ∧ p.length ≤ cs := by
  intro f
  induction f with
  | zero => intro start p hp; simp [splitLongGo] at hp
  | succ f ih =>
    intro start p hp
    simp only [splitLongGo] at hp
    split at hp
    · next hs =>
      split at hp
      · exact ih _ p hp
      · next hne =>
        rcases List.mem_cons.mp hp with h | h
        · subst h
          refine ⟨by simpa [List.isEmpty_iff] using hne, ?_⟩
          calc (strip (slice t start (nextEnd cs t start))).length
              ≤ (slice t start (nextEnd cs t start)).length := length_strip_le _
            _ ≤ nextEnd cs t start - start := length_slice_le _ _ _
            _ ≤ cs := by have := nextEnd_le_window cs t start; omega
        · exact ih _ p h
    · simp at hp

/-! ## Claim C10: termination and output shape of `_split_long_text` -/

/-- C10 counterexample: on the empty input string, `_split_long_text`
takes the early-return path (`len(text) <= chunk_size_chars`) and
returns `[""]`, so a returned part is empty even though
`chunk_size_chars = 1 ≥ 1` — the nonemptiness clause of the claim fails
for the empty input. -/
theorem c10_counterexample :
    splitLongText 1 ([] : List Char) = [[]] ∧
    ([] : List Char) ∈ splitLongText 1 ([] : List Char) := by
  constructor
  · rfl
  · simp [splitLongText]

/-- C10 (amended): with `chunk_size_chars ≥ 1`, each loop iteration of
`_split_long_text` strictly increases `start` (so the loop terminates,
and the result is independent of any fuel of at least `n - start`);
every returned part has length at most `chunk_size_chars`, and is
non-empty provided the input string is non-empty; with
`chunk_size_chars = 0` the window computation makes no progress. -/
theorem c10_split_long_text_termination :
    (∀ cs t start, 1 ≤ cs → start < List.length t → start < nextEnd cs t start) ∧
    (∀ cs t f1 f2 start, 1 ≤ cs → List.length t - start ≤ f1 →
      List.length t - start ≤ f2 → splitLongGo cs t f1 start = splitLongGo cs t f2 start) ∧
    (∀ cs t p, t ≠ [] → p ∈ splitLongText cs t → p ≠ [] ∧ p.length ≤ cs) ∧
    (∀ t start, start < List.length t → nextEnd 0 t start = start) := by
  refine ⟨nextEnd_lt, ?_, ?_, nextEnd_zero⟩
  · intro cs t f1 f2 start hcs h1 h2
    exact splitLongGo_fuel cs t hcs f1 f2 start h1 h2
  · intro cs t p ht hp
    unfold splitLongText at hp
    split at hp
    · next hle =>
      rw [List.mem_singleton] at hp
      subst hp
      exact ⟨ht, hle⟩
    · exact splitLongGo_parts cs t t.length 0 p hp

/-- C10 witness: the theorem's parts applied at concrete inputs. -/
theorem c10_witness :
    0 < nextEnd 1 (lc "ab") 0 ∧ (lc "a" ≠ [] ∧ (lc "a").length ≤ 2) := by
  refine ⟨c10_split_long_text_termination.1 1 (lc "ab") 0 (by decide) (by decide), ?_⟩
  exact c10_split_long_text_termination.2.2.1 2 (lc "a") (lc "a") (by decide) (by decide)

/-! ## Claim C9: empty query or unavailable corpus yields the empty hit list -/

/-- C9: if the normalized (stripped, lower-cased) query is empty, or the
corpus source is unavailable (`DATA_DIR` does not exist), the ranker
returns the empty sequence — a valid outcome, not an exception; in
particular the empty query yields `[]` regardless of corpus contents. -/
theorem c9_empty_query_or_missing_corpus (corpus : Option (List RChunk))
    (q : List Char) (k : Nat) :
    (lowerList (strip q) = [] → localTextSearch corpus q k = []) ∧
    localTextSearch none q k = [] ∧
    localTextSearch corpus [] k = [] := by
  refine ⟨?_, rfl, ?_⟩
  · intro h
    cases corpus with
    | none => rfl
    | some chunks =>
      simp [localTextSearch, searchAnnotated, searchAnnotatedFrom, h]
  · cases corpus with
    | none => rfl
    | some chunks =>
      simp [localTextSearch, searchAnnotated, searchAnnotatedFrom, strip, lowerList]

/-- C9 witness: a whitespace-only query on a non-empty corpus. -/
theorem c9_witness :
    localTextSearch (some [⟨lc "anything", 7⟩]) (lc " ") 5 = [] :=
  (c9_empty_query_or_missing_corpus (some [⟨lc "anything", 7⟩]) (lc " ") 5).1 (by decide)

/-! ## Concrete counterexamples to C1, C2, C3, C4, C6 -/

/-- C1 counterexample: three corpus items of equal positive score with
`top_k = 2`.  On overflow `heappushpop` evicts the smallest
`(score, tie)` pair, which among equal scores is the EARLIEST-encountered
item (cid 1), and `nlargest` puts the larger tie first, so equal-score
items appear in REVERSE encounter order `[cid 3, cid 2]` — both tie-break
clauses of the claim fail. -/
theorem c1_counterexample :
    localTextSearch (some [⟨lc "x", 1⟩, ⟨lc "x", 2⟩, ⟨lc "x", 3⟩]) (lc "x") 2
      = [⟨lc "x", 3⟩, ⟨lc "x", 2⟩] ∧
    (∀ ch ∈ [(⟨lc "x", 1⟩ : RChunk), ⟨lc "x", 2⟩, ⟨lc "x", 3⟩],
      scoreOf (lc "x") (wordTokens (lc "x")) (lowerList ch.text) = 11) ∧
    (⟨lc "x", 1⟩ : RChunk) ∉
      localTextSearch (some [⟨lc "x", 1⟩, ⟨lc "x", 2⟩, ⟨lc "x", 3⟩]) (lc "x") 2 := by
  decide

/-- C2 counterexample: with `chunk_size_chars = 20`, `min_chunk_chars = 5`
the merge pass absorbs the chunk with index 1 into index 0 and then
stops, so the returned chunk indices are `[0, 2]` — consecutive output
chunks do NOT have consecutive `chunk_index` values. -/
theorem c2_counterexample :
    (processText 20 5 tinyChunksInput).map Chunk.chunkIndex = [0, 2] := by
  decide

/-- C6 counterexample: the same input yields three consecutive pre-merge
chunks all below `min_chunk_chars = 5`, and each successive absorption
stays within `chunk_size_chars = 20` (3+1+1 ≤ 20, then 5+1+2 ≤ 20), yet
the merge pass returns TWO chunks, not one: after the first absorption
the accumulated length 5 is no longer `< min_chunk_chars`, so the
cascade stops. -/
theorem c6_counterexample :
    (aggregateChunksPre 20 (splitIntoSentences tinyChunksInput)).map Chunk.charLen
      = [3, 1, 2] ∧
    (∀ n ∈ [3, 1, 2], n < 5) ∧ 3 + 1 + 1 ≤ 20 ∧ 3 + 1 + 1 + 1 + 2 ≤ 20 ∧
    (processText 20 5 tinyChunksInput).length = 2 := by
  decide

/-- C3 counterexample: `process_text` emits the single chunk
`"Cc. a b. Dd eeee. Ff"` of length 20 = `chunk_size_chars` (so the
claim's hypothesis `len ≤ chunkSizeChars` holds), but re-chunking that
text with the same parameters yields TWO chunks: the greedy
re-aggregation needs `buffer_len + s_len + 1 ≤ chunk_size_chars`, which
fails at length exactly `chunk_size_chars`. -/
theorem c3_counterexample :
    processText 20 10 boundaryChunkInput = [⟨lc "Cc. a b. Dd eeee. Ff", 0, 20⟩] ∧
    (lc "Cc. a b. Dd eeee. Ff").length ≤ 20 ∧
    (processText 20 10 (lc "Cc. a b. Dd eeee. Ff")).length = 2 := by
  decide

/-- C4 counterexample: on whitespace-only input the sentence list is
empty, so `process_text` returns the entire input verbatim as one chunk;
with `chunk_size_chars = 1` that chunk has `char_len = 2 > 1`. -/
theorem c4_counterexample :
    processText 1 0 (lc "  ") = [⟨lc "  ", 0, 2⟩] ∧
    ∃ ch ∈ processText 1 0 (lc "  "), 1 < ch.charLen := by
  decide

/-! ## Ranker: facts about scores and the bounded heap (C7, C8, C1) -/

theorem foldl_add_map {α : Type} (f : α → Nat) (l : List α) (init : Nat) :
    l.foldl (fun a t => a + f t) init = init + (l.map f).sum := by
  induction l generalizing init with
  | nil => simp
  | cons x xs ih => simp [ih, Nat.add_assoc]

/-- The score loop computes the spec's formula: ten times the count of
the full query plus the sum of the term counts. -/
theorem scoreOf_formula (q : List Char) (terms : List (List Char)) (text : List Char) :
    scoreOf q terms text = 10 * pyCount text q + (terms.map (pyCount text)).sum := by
  unfold scoreOf
  rw [foldl_add_map]
  omega

theorem lowerList_eq_nil_iff {t : List Char} : lowerList t = [] ↔ t = [] := by
  unfold lowerList
  simp

theorem itemLtB_iff (a b : HeapItem) :
    itemLtB a b = true ↔ (a.score < b.score ∨ (a.score = b.score ∧ a.tie < b.tie)) := by
  simp [itemLtB]

theorem itemLtB_false_iff (a b : HeapItem) :
    itemLtB a b = false ↔ ¬(a.score < b.score ∨ (a.score = b.score ∧ a.tie < b.tie)) := by
  rw [← itemLtB_iff]
  cases h : itemLtB a b <;> simp

theorem itemLtB_false_trans {a b c : HeapItem}
    (h1 : itemLtB a b = false) (h2 : itemLtB b c = false) : itemLtB a c = false := by
  rw [itemLtB_false_iff] at h1 h2 ⊢
  omega

theorem itemLtB_asymm {a b : HeapItem} (h : itemLtB a b = true) : itemLtB b a = false := by
  rw [itemLtB_iff] at h
  rw [itemLtB_false_iff]
  omega

theorem heapMinItem_mem (x : HeapItem) (heap : List HeapItem) :
    heapMinItem x heap ∈ x :: heap := by
  induction heap generalizing x with
  | nil => simp [heapMinItem]
  | cons z zs ih =>
    simp only [heapMinItem, List.foldl_cons]
    have h := ih (if itemLtB z x then z else x)
    simp only [heapMinItem] at h
    rcases List.mem_cons.mp h with h | h
    · rw [h]
      split <;> simp
    · simp [h]

theorem heapMinItem_min (x : HeapItem) (heap : List HeapItem) :
    ∀ y ∈ x :: heap, itemLtB y (heapMinItem x heap) = false := by
  induction heap generalizing x with
  | nil =>
    intro y hy
    rw [List.mem_singleton] at hy
    subst hy
    simp [heapMinItem, itemLtB_false_iff]
  | cons z zs ih =>
    intro y hy
    have hstep : heapMinItem x (z :: zs) = heapMinItem (if itemLtB z x then z else x) zs := by
      simp only [heapMinItem, List.foldl_cons]
    rw [hstep]
    have hx' : itemLtB (if itemLtB z x then z else x)
        (heapMinItem (if itemLtB z x then z else x) zs) = false :=
      ih _ _ (List.mem_cons_self _ _)
    rcases List.mem_cons.mp hy with hyx | hy2
    · by_cases hzx : itemLtB z x = true
      · rw [if_pos hzx] at hx' ⊢
        rw [hyx]
        exact itemLtB_false_trans (itemLtB_asymm hzx) hx'
      · rw [Bool.not_eq_true] at hzx
        rw [if_neg (by simp [hzx])] at hx' ⊢
        rw [hyx]
        exact hx'
    · rcases List.mem_cons.mp hy2 with hyz | hy3
      · by_cases hzx : itemLtB z x = true
        · rw [if_pos hzx] at hx' ⊢
          rw [hyz]
          exact hx'
        · rw [Bool.not_eq_true] at hzx
          rw [if_neg (by simp [hzx])] at hx' ⊢
          rw [hyz]
          exact itemLtB_false_trans hzx hx'
      · exact ih _ y (List.mem_cons_of_mem _ hy3)

theorem eraseFirstItem_sublist (l : List HeapItem) (m : HeapItem) :
    List.Sublist (eraseFirstItem l m) l := by
  induction l with
  | nil => simp [eraseFirstItem]
  | cons x xs ih =>
    simp only [eraseFirstItem]
    split
    · exact List.sublist_cons_self x xs
    · exact List.Sublist.cons₂ x ih

theorem perm_eraseFirstItem {m : HeapItem} :
    ∀ {l : List HeapItem}, m ∈ l → List.Perm l (m :: eraseFirstItem l m) := by
  intro l
  induction l with
  | nil => intro h; simp at h
  | cons x xs ih =>
    intro h
    simp only [eraseFirstItem]
    split
    · next heq => subst heq; exact List.Perm.refl _
    · next hne =>
      have hm : m ∈ xs := by
        rcases List.mem_cons.mp h with h1 | h1
        · exact absurd h1.symm hne
        · exact h1
      exact ((ih hm).cons x).trans (List.Perm.swap m x _)

theorem heapPushPop_sublist (heap : List HeapItem) (item : HeapItem) :
    List.Sublist (heapPushPop heap item) (item :: heap) :=
  eraseFirstItem_sublist _ _

/-- `heappushpop` removes exactly one element, namely a `(score, tie)`-
minimal one, and keeps everything else. -/
theorem heapPushPop_spec (heap : List HeapItem) (item : HeapItem) :
    ∃ ev ∈ item :: heap, (∀ x ∈ item :: heap, itemLtB x ev = false) ∧
      List.Perm (item :: heap) (ev :: heapPushPop heap item) := by
  refine ⟨heapMinItem item heap, heapMinItem_mem item heap, heapMinItem_min item heap, ?_⟩
  exact perm_eraseFirstItem (heapMinItem_mem item heap)

theorem scanStep_wf (q : List Char) (terms : List (List Char)) (k : Nat)
    (st : ScanSt) (ch : RChunk) (h : ScanWF q terms st) :
    ScanWF q terms (scanStep q terms k st ch) := by
  obtain ⟨hall, hnd⟩ := h
  unfold scanStep
  simp only
  split
  · exact ⟨hall, hnd⟩
  · next htext =>
    split
    · exact ⟨hall, hnd⟩
    · next hscore =>
      have hsub : List.Sublist
          (if st.heap.length < k
            then (⟨scoreOf q terms (lowerList ch.text), st.tieCtr, ch⟩ : HeapItem) :: st.heap
            else heapPushPop st.heap ⟨scoreOf q terms (lowerList ch.text), st.tieCtr, ch⟩)
          ((⟨scoreOf q terms (lowerList ch.text), st.tieCtr, ch⟩ : HeapItem) :: st.heap) := by
        split
        · exact List.Sublist.refl _
        · exact heapPushPop_sublist _ _
      constructor
      · intro it hit
        have hmem : it ∈ (⟨scoreOf q terms (lowerList ch.text), st.tieCtr, ch⟩ : HeapItem)
            :: st.heap := hsub.mem hit
        rcases List.mem_cons.mp hmem with rfl | hmem
        · refine ⟨rfl, Nat.pos_of_ne_zero hscore, ?_, Nat.lt_succ_self _⟩
          intro hnil
          rw [List.isEmpty_iff] at htext
          exact htext (by rw [hnil]; rfl)
        · obtain ⟨h1, h2, h3, h4⟩ := hall it hmem
          exact ⟨h1, h2, h3, Nat.lt_succ_of_lt h4⟩
      · have hnd2 : ((⟨scoreOf q terms (lowerList ch.text), st.tieCtr, ch⟩ : HeapItem)
            :: st.heap).map HeapItem.tie |>.Nodup := by
          rw [List.map_cons, List.nodup_cons]
          refine ⟨?_, hnd⟩
          intro hm
          rw [List.mem_map] at hm
          obtain ⟨it, hit, htie⟩ := hm
          exact Nat.ne_of_lt (hall it hit).2.2.2 htie
        exact List.Nodup.sublist (hsub.map HeapItem.tie) hnd2

theorem foldlScan_wf (q : List Char) (terms : List (List Char)) (k : Nat)
    (chunks : List RChunk) :
    ∀ st : ScanSt, ScanWF q terms st →
      ScanWF q terms (chunks.foldl (scanStep q terms k) st) := by
  induction chunks with
  | nil => intro st h; exact h
  | cons c cs ih => intro st h; exact ih _ (scanStep_wf q terms k st c h)

theorem searchAnnotated_sorted (corpus : Option (List RChunk)) (q : List Char) (k : Nat) :
    List.Pairwise itemDesc (searchAnnotated corpus q k) := by
  unfold searchAnnotated searchAnnotatedFrom
  cases corpus with
  | none => exact List.Pairwise.nil
  | some chunks =>
    simp only
    split
    · exact List.Pairwise.nil
    · exact List.sorted_insertionSort itemDesc _

theorem searchAnnotated_mem_wf {corpus : Option (List RChunk)} {q : List Char} {k : Nat}
    {it : HeapItem} (hit : it ∈ searchAnnotated corpus q k) :
    it.score = scoreOf (lowerList (strip q)) (wordTokens (lowerList (strip q)))
        (lowerList it.chunk.text) ∧ 0 < it.score ∧ it.chunk.text ≠ [] := by
  unfold searchAnnotated searchAnnotatedFrom at hit
  cases corpus with
  | none => simp at hit
  | some chunks =>
    simp only at hit
    split at hit
    · simp at hit
    · next hq =>
      unfold heapToSortedDesc at hit
      rw [List.mem_insertionSort] at hit
      have hwf := foldlScan_wf (lowerList (strip q)) (wordTokens (lowerList (strip q))) k
        chunks ⟨[], 0⟩ ⟨by intro it h; simp at h, List.nodup_nil⟩
      obtain ⟨h1, h2, h3, -⟩ := hwf.1 it hit
      exact ⟨h1, h2, h3⟩

theorem searchAnnotated_ties_nodup (corpus : Option (List RChunk)) (q : List Char) (k : Nat) :
    ((searchAnnotated corpus q k).map HeapItem.tie).Nodup := by
  unfold searchAnnotated searchAnnotatedFrom
  cases corpus with
  | none => exact List.nodup_nil
  | some chunks =>
    simp only
    split
    · exact List.nodup_nil
    · next hq =>
      have hwf := foldlScan_wf (lowerList (strip q)) (wordTokens (lowerList (strip q))) k
        chunks ⟨[], 0⟩ ⟨by intro it h; simp at h, List.nodup_nil⟩
      have hperm := (List.perm_insertionSort itemDesc
        (chunks.foldl (scanStep (lowerList (strip q))
          (wordTokens (lowerList (strip q))) k) ⟨[], 0⟩).heap).map HeapItem.tie
      exact List.Nodup.perm hwf.2 hperm.symm

/-- C7: the score of a candidate is ten times the count of
non-overlapping occurrences of the full normalized query plus the sum
over query word tokens of their counts; items reach the output only
with positive score and non-empty text (score ≤ 0 is excluded); and on
the spec's brown-fox corpus the matching item ranks first with score
12. -/
theorem c7_lexical_scoring :
    (∀ q terms text, scoreOf q terms text
        = 10 * pyCount text q + (terms.map (pyCount text)).sum) ∧
    (∀ corpus q k, ∀ ch ∈ localTextSearch (some corpus) q k,
      ch.text ≠ [] ∧
        0 < scoreOf (lowerList (strip q)) (wordTokens (lowerList (strip q)))
          (lowerList ch.text)) ∧
    (localTextSearch (some brownCorpus) (lc "brown fox") 5
        = [⟨lc "The quick brown fox jumps", 1⟩] ∧
      scoreOf (lc "brown fox") (wordTokens (lc "brown fox"))
        (lowerList (lc "The quick brown fox jumps")) = 12) := by
  refine ⟨scoreOf_formula, ?_, by decide⟩
  intro corpus q k ch hch
  unfold localTextSearch at hch
  rw [List.mem_map] at hch
  obtain ⟨it, hit, rfl⟩ := hch
  obtain ⟨h1, h2, h3⟩ := searchAnnotated_mem_wf hit
  exact ⟨h3, by rw [← h1]; exact h2⟩

/-- C7 witness: the membership conjunct applied to the brown-fox hit. -/
theorem c7_witness :
    (⟨lc "The quick brown fox jumps", 1⟩ : RChunk).text ≠ [] ∧
    0 < scoreOf (lowerList (strip (lc "brown fox")))
        (wordTokens (lowerList (strip (lc "brown fox"))))
        (lowerList (⟨lc "The quick brown fox jumps", 1⟩ : RChunk).text) :=
  c7_lexical_scoring.2.1 brownCorpus (lc "brown fox") 5
    ⟨lc "The quick brown fox jumps", 1⟩ (by decide)

/-- C1 (amended): the hit list is the scored entries in strictly
descending `(score, tie)` order — sorted by score descending, with
equal-score items in REVERSE encounter order — and when the bounded
heap must evict on overflow it removes a `(score, tie)`-minimal entry,
i.e. among equal-score candidates the EARLIEST-encountered one is
evicted and the later one kept. -/
theorem c1_tie_order (corpus : Option (List RChunk)) (q : List Char) (k : Nat) :
    localTextSearch corpus q k = (searchAnnotated corpus q k).map HeapItem.chunk ∧
    List.Pairwise strictDesc (searchAnnotated corpus q k) ∧
    (∀ heap item, ∃ ev ∈ item :: heap,
      (∀ x ∈ item :: heap, itemLtB x ev = false) ∧
      List.Perm (item :: heap) (ev :: heapPushPop heap item)) := by
  refine ⟨rfl, ?_, fun heap item => heapPushPop_spec heap item⟩
  have hsorted : List.Pairwise itemDesc (searchAnnotated corpus q k) :=
    searchAnnotated_sorted corpus q k
  have hties : List.Pairwise (fun a b : HeapItem => a.tie ≠ b.tie)
      (searchAnnotated corpus q k) := by
    have h := searchAnnotated_ties_nodup corpus q k
    unfold List.Nodup at h
    rw [List.pairwise_map] at h
    exact h
  refine List.Pairwise.imp₂ ?_ hsorted hties
  intro a b h1 h2
  unfold itemDesc at h1
  unfold strictDesc
  rcases h1 with h1 | h1
  · exact Or.inl h1
  · exact Or.inr ⟨h1.1, by omega⟩

/-- C1 witness: the sortedness conjunct at a concrete two-item corpus. -/
theorem c1_witness :
    List.Pairwise strictDesc (searchAnnotated (some [⟨lc "x", 1⟩, ⟨lc "x", 2⟩]) (lc "x") 2) :=
  ((c1_tie_order (some [⟨lc "x", 1⟩, ⟨lc "x", 2⟩]) (lc "x") 2).2).1

/-! ## Determinism of the ranker (C8): the output does not depend on the
start value of the tie counter, so two runs with identical corpus order
and query (each starting a fresh `itertools.count()`) agree. -/

theorem itemLtB_tieShift (c0 : Nat) (a b : HeapItem) :
    itemLtB (tieShift c0 a) (tieShift c0 b) = itemLtB a b := by
  rw [Bool.eq_iff_iff, itemLtB_iff, itemLtB_iff]
  unfold tieShift
  simp only
  omega

theorem itemDesc_tieShift (c0 : Nat) (a b : HeapItem) :
    itemDesc a b ↔ itemDesc (tieShift c0 a) (tieShift c0 b) := by
  unfold itemDesc tieShift
  simp only
  omega

theorem tieShift_inj {c0 : Nat} {a b : HeapItem} (h : tieShift c0 a = tieShift c0 b) :
    a = b := by
  cases a
  cases b
  simp only [tieShift, HeapItem.mk.injEq] at h ⊢
  exact ⟨h.1, by omega, h.2.2⟩

theorem heapMinItem_tieShift (c0 : Nat) (x : HeapItem) (heap : List HeapItem) :
    heapMinItem (tieShift c0 x) (heap.map (tieShift c0)) = tieShift c0 (heapMinItem x heap) := by
  induction heap generalizing x with
  | nil => rfl
  | cons z zs ih =>
    have hz : (if itemLtB (tieShift c0 z) (tieShift c0 x) then tieShift c0 z
        else tieShift c0 x) = tieShift c0 (if itemLtB z x then z else x) := by
      rw [itemLtB_tieShift]
      split <;> rfl
    simp only [heapMinItem, List.map_cons, List.foldl_cons] at ih ⊢
    rw [hz]
    exact ih _

theorem eraseFirstItem_tieShift (c0 : Nat) (l : List HeapItem) (m : HeapItem) :
    eraseFirstItem (l.map (tieShift c0)) (tieShift c0 m)
      = (eraseFirstItem l m).map (tieShift c0) := by
  induction l with
  | nil => rfl
  | cons x xs ih =>
    simp only [List.map_cons, eraseFirstItem]
    by_cases h : x = m
    · rw [if_pos h, if_pos (by rw [h])]
    · rw [if_neg h, if_neg (fun hc => h (tieShift_inj hc)), List.map_cons, ih]

theorem heapPushPop_tieShift (c0 : Nat) (heap : List HeapItem) (item : HeapItem) :
    heapPushPop (heap.map (tieShift c0)) (tieShift c0 item)
      = (heapPushPop heap item).map (tieShift c0) := by
  unfold heapPushPop
  rw [heapMinItem_tieShift]
  have h : tieShift c0 item :: heap.map (tieShift c0)
      = (item :: heap).map (tieShift c0) := rfl
  rw [h, eraseFirstItem_tieShift]

theorem scanStep_tieShift (q : List Char) (terms : List (List Char)) (k c0 : Nat)
    (st : ScanSt) (ch : RChunk) :
    scanStep q terms k ⟨st.heap.map (tieShift c0), st.tieCtr + c0⟩ ch
      = ⟨(scanStep q terms k st ch).heap.map (tieShift c0),
         (scanStep q terms k st ch).tieCtr + c0⟩ := by
  unfold scanStep
  simp only
  split
  · rfl
  · split
    · rfl
    · simp only [List.length_map]
      split
      · next hlen =>
        have : (⟨scoreOf q terms (lowerList ch.text), st.tieCtr + c0, ch⟩ : HeapItem)
            = tieShift c0 ⟨scoreOf q terms (lowerList ch.text), st.tieCtr, ch⟩ := rfl
        rw [this]
        show ScanSt.mk _ _ = ScanSt.mk _ _
        rw [ScanSt.mk.injEq]
        exact ⟨rfl, by omega⟩
      · next hlen =>
        have : (⟨scoreOf q terms (lowerList ch.text), st.tieCtr + c0, ch⟩ : HeapItem)
            = tieShift c0 ⟨scoreOf q terms (lowerList ch.text), st.tieCtr, ch⟩ := rfl
        rw [this, heapPushPop_tieShift]
        show ScanSt.mk _ _ = ScanSt.mk _ _
        rw [ScanSt.mk.injEq]
        exact ⟨rfl, by omega⟩

theorem foldlScan_tieShift (q : List Char) (terms : List (List Char)) (k c0 : Nat)
    (chunks : List RChunk) :
    ∀ st : ScanSt,
      chunks.foldl (scanStep q terms k) ⟨st.heap.map (tieShift c0), st.tieCtr + c0⟩
        = ⟨(chunks.foldl (scanStep q terms k) st).heap.map (tieShift c0),
           (chunks.foldl (scanStep q terms k) st).tieCtr + c0⟩ := by
  induction chunks with
  | nil => intro st; rfl
  | cons c cs ih =>
    intro st
    rw [List.foldl_cons, List.foldl_cons, scanStep_tieShift q terms k c0 st c]
    exact ih (scanStep q terms k st c)

theorem heapToSortedDesc_tieShift (c0 : Nat) (heap : List HeapItem) :
    heapToSortedDesc (heap.map (tieShift c0))
      = (heapToSortedDesc heap).map (tieShift c0) := by
  unfold heapToSortedDesc
  exact (List.map_insertionSort itemDesc itemDesc (tieShift c0) heap
    (fun a _ b _ => itemDesc_tieShift c0 a b)).symm

theorem searchAnnotatedFrom_tieShift (c0 : Nat) (corpus : Option (List RChunk))
    (q : List Char) (k : Nat) :
    searchAnnotatedFrom c0 corpus q k = (searchAnnotated corpus q k).map (tieShift c0) := by
  unfold searchAnnotated searchAnnotatedFrom
  cases corpus with
  | none => rfl
  | some chunks =>
    simp only
    split
    · rfl
    · have h0 : (⟨[], c0⟩ : ScanSt)
          = ⟨(⟨[], 0⟩ : ScanSt).heap.map (tieShift c0), (⟨[], 0⟩ : ScanSt).tieCtr + c0⟩ := by
        show ScanSt.mk [] c0 = ScanSt.mk [] (0 + c0)
        rw [Nat.zero_add]
      rw [h0, foldlScan_tieShift]
      exact heapToSortedDesc_tieShift c0 _

/-- C8: `_local_text_search` is deterministic.  The hit sequence is a
pure function of the query, the materialized corpus in enumeration
order, and `top_k`; in particular it does not depend on the start value
of the fresh tie counter, so two runs with the same inputs produce
identical output sequences including the relative order of equal-score
items. -/
theorem c8_deterministic (corpus : Option (List RChunk)) (q : List Char) (k : Nat) :
    (∀ c1 c2, (searchAnnotatedFrom c1 corpus q k).map HeapItem.chunk
        = (searchAnnotatedFrom c2 corpus q k).map HeapItem.chunk) ∧
    localTextSearch corpus q k = (searchAnnotatedFrom 0 corpus q k).map HeapItem.chunk := by
  refine ⟨?_, rfl⟩
  intro c1 c2
  rw [searchAnnotatedFrom_tieShift c1, searchAnnotatedFrom_tieShift c2,
    List.map_map, List.map_map]
  rfl

/-! ## Chunker infrastructure: whitespace, strip, join, and atoms -/

theorem filterNW_append (a b : List Char) :
    filterNW (a ++ b) = filterNW a ++ filterNW b := by
  unfold filterNW
  exact List.filter_append _ _

theorem filterNW_eq_nil_of_ws {l : List Char} (h : ∀ c ∈ l, isWS c = true) :
    filterNW l = [] := by
  unfold filterNW
  rw [List.filter_eq_nil_iff]
  intro a ha
  simp [h a ha]

theorem filterNW_strip (l : List Char) : filterNW (strip l) = filterNW l := by
  obtain ⟨pre, suf, hd, hpre, hsuf⟩ := strip_decomp l
  conv_rhs => rw [hd]
  rw [filterNW_append, filterNW_append, filterNW_eq_nil_of_ws hpre,
    filterNW_eq_nil_of_ws hsuf]
  simp

theorem strip_eq_nil_iff {l : List Char} : strip l = [] ↔ ∀ c ∈ l, isWS c = true := by
  constructor
  · intro h c hc
    obtain ⟨pre, suf, hd, hpre, hsuf⟩ := strip_decomp l
    rw [h, List.append_nil] at hd
    rw [hd] at hc
    rcases List.mem_append.mp hc with h1 | h1
    · exact hpre c h1
    · exact hsuf c h1
  · intro h
    unfold strip
    have h1 : l.dropWhile isWS = [] := List.dropWhile_eq_nil_iff.mpr h
    rw [h1]
    rfl

theorem strip_eq_self_of {l : List Char}
    (h1 : ∀ c, l.head? = some c → isWS c = false)
    (h2 : ∀ c, l.getLast? = some c → isWS c = false) : strip l = l := by
  have hdrop : l.dropWhile isWS = l := by
    cases l with
    | nil => rfl
    | cons x xs =>
      rw [List.dropWhile_cons, if_neg]
      rw [h1 x rfl]
      simp
  unfold strip
  rw [hdrop]
  have hrev : l.reverse.dropWhile isWS = l.reverse := by
    cases hr : l.reverse with
    | nil => rfl
    | cons x xs =>
      rw [List.dropWhile_cons, if_neg]
      have hx : l.getLast? = some x := by
        rw [← List.head?_reverse, hr]
        rfl
      rw [h2 x hx]
      simp
  rw [hrev, List.reverse_reverse]

theorem strip_eq_rdw (l : List Char) :
    strip l = List.rdropWhile isWS (l.dropWhile isWS) := rfl

/-- A non-empty strip result starts and ends with a non-whitespace
character. -/
theorem strip_head_last {l : List Char} (h : strip l ≠ []) :
    (∀ c, (strip l).head? = some c → isWS c = false) ∧
    (∀ c, (strip l).getLast? = some c → isWS c = false) := by
  constructor
  · intro c hc
    have hpre := List.rdropWhile_prefix isWS (l.dropWhile isWS)
    rw [← strip_eq_rdw] at hpre
    obtain ⟨t, ht⟩ := hpre
    have hdne : l.dropWhile isWS ≠ [] := by
      intro hnil
      rw [hnil] at ht
      rcases List.append_eq_nil.mp ht with ⟨h1, -⟩
      exact h h1
    have hh := List.head_dropWhile_not isWS l hdne
    have hheads : (l.dropWhile isWS).head? = some c := by
      rw [← ht, List.head?_append, hc]
      rfl
    rw [List.head?_eq_head hdne] at hheads
    have : c = (l.dropWhile isWS).head hdne := by
      injection hheads.symm
    rw [this]
    simpa using hh
  · intro c hc
    have hlast := List.rdropWhile_last_not isWS (l.dropWhile isWS)
      (by rw [← strip_eq_rdw]; exact h)
    obtain ⟨hne, hcgl⟩ := List.mem_getLast?_eq_getLast hc
    rw [hcgl]
    simpa using hlast

theorem strip_strip (l : List Char) : strip (strip l) = strip l := by
  by_cases h : strip l = []
  · rw [h]
    rfl
  · exact strip_eq_self_of (strip_head_last h).1 (strip_head_last h).2

/-! ### Space-join facts -/

theorem joinSpace_cons (a : List Char) (rest : List (List Char)) (h : rest ≠ []) :
    joinSpace (a :: rest) = a ++ ' ' :: joinSpace rest := by
  cases rest with
  | nil => exact absurd rfl h
  | cons b bs => rfl

theorem joinSpace_append (as bs : List (List Char)) (ha : as ≠ []) (hb : bs ≠ []) :
    joinSpace (as ++ bs) = joinSpace as ++ ' ' :: joinSpace bs := by
  induction as with
  | nil => exact absurd rfl ha
  | cons a as ih =>
    cases as with
    | nil =>
      rw [List.singleton_append, joinSpace_cons a bs hb]
      rfl
    | cons a2 as2 =>
      rw [List.cons_append, joinSpace_cons a ((a2 :: as2) ++ bs) (by simp),
        joinSpace_cons a (a2 :: as2) (by simp), ih (by simp)]
      simp

theorem joinSpace_head (a : List Char) (rest : List (List Char)) (ha : a ≠ []) :
    (joinSpace (a :: rest)).head? = a.head? := by
  cases rest with
  | nil => rfl
  | cons b bs =>
    rw [joinSpace_cons a (b :: bs) (by simp), List.head?_append]
    obtain ⟨x, xs, hx⟩ := List.exists_cons_of_ne_nil ha
    rw [hx]
    rfl

theorem getLast?_cons_ne {x : Char} {l : List Char} (h : l ≠ []) :
    (x :: l).getLast? = l.getLast? := by
  have h1 : x :: l = [x] ++ l := rfl
  rw [h1, List.getLast?_append]
  cases hj : l.getLast? with
  | none => exact absurd (List.getLast?_eq_none_iff.mp hj) h
  | some g => rfl

theorem joinSpace_ne_nil {as : List (List Char)} (ha : as ≠ []) (hx : ∀ a ∈ as, a ≠ []) :
    joinSpace as ≠ [] := by
  obtain ⟨a, rest, rfl⟩ := List.exists_cons_of_ne_nil ha
  have h := joinSpace_head a rest (hx a (by simp))
  intro hnil
  rw [hnil] at h
  obtain ⟨y, ys, hy⟩ := List.exists_cons_of_ne_nil (hx a (by simp))
  rw [hy] at h
  exact absurd h.symm (by simp)

theorem joinSpace_getLast_not_ws :
    ∀ (as : List (List Char)), (∀ a ∈ as, NiceAtom a) →
      ∀ c, (joinSpace as).getLast? = some c → isWS c = false
  | [], _, c, hc => by simp [joinSpace] at hc
  | [a], h, c, hc => (h a (by simp)).2.2.1 c hc
  | a :: b :: bs, h, c, hc => by
    rw [joinSpace_cons a (b :: bs) (by simp), List.getLast?_append] at hc
    have hne : joinSpace (b :: bs) ≠ [] :=
      joinSpace_ne_nil (by simp) (fun x hx => (h x (List.mem_cons_of_mem a hx)).1)
    rw [getLast?_cons_ne hne] at hc
    cases hj : (joinSpace (b :: bs)).getLast? with
    | none => exact absurd (List.getLast?_eq_none_iff.mp hj) hne
    | some g =>
      rw [hj] at hc
      have hgc : g = c := by
        have : (some g).or a.getLast? = some g := rfl
        rw [this] at hc
        injection hc
      exact hgc ▸ joinSpace_getLast_not_ws (b :: bs)
        (fun x hx => h x (List.mem_cons_of_mem a hx)) g hj

theorem joinSpace_head_not_ws {as : List (List Char)} (ha : as ≠ [])
    (h : ∀ a ∈ as, NiceAtom a) :
    ∀ c, (joinSpace as).head? = some c → isWS c = false := by
  obtain ⟨a, rest, rfl⟩ := List.exists_cons_of_ne_nil ha
  intro c hc
  rw [joinSpace_head a rest (h a (by simp)).1] at hc
  exact (h a (by simp)).2.1 c hc

theorem isJoin_facts {t : List Char} (h : IsJoin t) : t ≠ [] ∧ strip t = t := by
  obtain ⟨as, ha, hnice, rfl⟩ := h
  have h1 : joinSpace as ≠ [] := joinSpace_ne_nil ha (fun a haa => (hnice a haa).1)
  refine ⟨h1, strip_eq_self_of ?_ ?_⟩
  · intro c hc
    exact joinSpace_head_not_ws ha hnice c hc
  · intro c hc
    exact joinSpace_getLast_not_ws as hnice c hc

/-- Joining two chunk texts with a single space (the merge pass) gives
again a join of atoms, and the final `strip` is a no-op. -/
theorem isJoin_merge {t1 t2 : List Char} (h1 : IsJoin t1) (h2 : IsJoin t2) :
    strip (t1 ++ ' ' :: t2) = t1 ++ ' ' :: t2 ∧ IsJoin (t1 ++ ' ' :: t2) := by
  obtain ⟨as1, ha1, hn1, rfl⟩ := h1
  obtain ⟨as2, ha2, hn2, rfl⟩ := h2
  rw [← joinSpace_append as1 as2 ha1 ha2]
  have hj : IsJoin (joinSpace (as1 ++ as2)) := by
    refine ⟨as1 ++ as2, by simp [ha1], ?_, rfl⟩
    intro a haa
    rcases List.mem_append.mp haa with hm | hm
    · exact hn1 a hm
    · exact hn2 a hm
  exact ⟨(isJoin_facts hj).2, hj⟩

/-! ### The sentence splitter: non-whitespace preservation and
absence of internal sentence boundaries -/

theorem splitSentGo_filterNW :
    ∀ (rest : List Char) (skip lastP : Bool) (cur : List Char),
      filterNW (splitSentGo skip lastP cur rest).flatten
        = filterNW cur.reverse ++ filterNW rest := by
  intro rest
  induction rest with
  | nil =>
    intro skip lastP cur
    cases skip <;> simp [splitSentGo, filterNW]
  | cons c cs ih =>
    intro skip lastP cur
    cases skip with
    | true =>
      simp only [splitSentGo]
      split
      · next hws =>
        rw [ih true false cur]
        have : filterNW (c :: cs) = filterNW cs := by
          unfold filterNW
          rw [List.filter_cons_of_neg (by simp [hws])]
        rw [this]
      · next hws =>
        rw [ih false (isPunct c) (c :: cur)]
        have h1 : filterNW ((c :: cur).reverse) = filterNW cur.reverse ++ filterNW [c] := by
          rw [List.reverse_cons, filterNW_append]
        have h2 : filterNW (c :: cs) = filterNW [c] ++ filterNW cs := by
          have : c :: cs = [c] ++ cs := rfl
          rw [this, filterNW_append]
        rw [h1, h2, List.append_assoc]
    | false =>
      simp only [splitSentGo]
      split
      · next hcut =>
        rw [List.flatten_cons, filterNW_append, ih true false []]
        have hws : isWS c = true := by
          rcases Bool.and_eq_true_iff.mp hcut with ⟨-, h2⟩
          exact h2
        have : filterNW (c :: cs) = filterNW cs := by
          unfold filterNW
          rw [List.filter_cons_of_neg (by simp [hws])]
        rw [this]
        simp [filterNW]
      · next hcut =>
        rw [ih false (isPunct c) (c :: cur)]
        have h1 : filterNW ((c :: cur).reverse) = filterNW cur.reverse ++ filterNW [c] := by
          rw [List.reverse_cons, filterNW_append]
        have h2 : filterNW (c :: cs) = filterNW [c] ++ filterNW cs := by
          have : c :: cs = [c] ++ cs := rfl
          rw [this, filterNW_append]
        rw [h1, h2, List.append_assoc]

/-- The non-whitespace content of the sentence pieces is exactly the
non-whitespace content of the input. -/
theorem splitSentences_filterNW (t : List Char) :
    filterNW (splitSentences t).flatten = filterNW t := by
  unfold splitSentences
  rw [splitSentGo_filterNW t false false []]
  rfl

theorem splitSentGo_chain :
    ∀ (rest : List Char) (skip lastP : Bool) (cur : List Char),
      (skip = true → cur = []) →
      List.Chain' noPW cur.reverse →
      (∀ c0, cur.head? = some c0 → isPunct c0 = true → lastP = true) →
      ∀ p ∈ splitSentGo skip lastP cur rest, List.Chain' noPW p := by
  intro rest
  induction rest with
  | nil =>
    intro skip lastP cur hskip hchain hhead p hp
    cases skip with
    | true =>
      simp only [splitSentGo, List.mem_singleton] at hp
      subst hp
      exact hchain
    | false =>
      simp only [splitSentGo, List.mem_singleton] at hp
      subst hp
      exact hchain
  | cons c cs ih =>
    intro skip lastP cur hskip hchain hhead p hp
    cases skip with
    | true =>
      have hcur : cur = [] := hskip rfl
      subst hcur
      simp only [splitSentGo] at hp
      split at hp
      · exact ih true false [] (fun _ => rfl) (by simp) (by simp) p hp
      · refine ih false (isPunct c) [c] (by simp) (by simp) ?_ p hp
        intro c0 hc0 hpunct
        have : c0 = c := by injection hc0.symm
        rw [← this]
        exact hpunct
    | false =>
      simp only [splitSentGo] at hp
      split at hp
      · rcases List.mem_cons.mp hp with hpc | hp2
        · rw [hpc]
          exact hchain
        · exact ih true false [] (fun _ => rfl) (by simp) (by simp) p hp2
      · next hcut =>
        refine ih false (isPunct c) (c :: cur)
          (by simp) ?_ ?_ p hp
        · rw [List.reverse_cons]
          rw [List.chain'_append]
          refine ⟨hchain, List.chain'_singleton c, ?_⟩
          intro x hx y hy
          rw [List.getLast?_reverse] at hx
          have hyc : y = c := by
            rw [List.head?_cons] at hy
            injection hy.symm
          subst hyc
          unfold noPW
          intro ⟨hpx, hwy⟩
          have hlp : lastP = true := hhead x hx hpx
          rw [hlp, hwy] at hcut
          simp at hcut
        · intro c0 hc0 hpunct
          have : c0 = c := by
            rw [List.head?_cons] at hc0
            injection hc0.symm
          rw [this] at hpunct
          exact hpunct

theorem splitSentences_chain (t : List Char) :
    ∀ p ∈ splitSentences t, List.Chain' noPW p :=
  splitSentGo_chain t false false [] (by simp) (by simp) (by simp)

/-- Every sentence produced by `_split_into_sentences` is an atom. -/
theorem splitIntoSentences_nice (t : List Char) :
    ∀ s ∈ splitIntoSentences t, NiceAtom s := by
  intro s hs
  unfold splitIntoSentences at hs
  rw [List.mem_map] at hs
  obtain ⟨p, hp, rfl⟩ := hs
  rw [List.mem_filter] at hp
  obtain ⟨hpmem, hcond⟩ := hp
  rw [Bool.and_eq_true] at hcond
  have hstripne : strip p ≠ [] := by
    have h2 := hcond.2
    intro hnil
    rw [hnil] at h2
    simp at h2
  refine ⟨hstripne, (strip_head_last hstripne).1, (strip_head_last hstripne).2, ?_⟩
  exact List.Chain'.infix (splitSentences_chain (strip t) p hpmem) (strip_within p)

/-! ### Slices of an oversized sentence are atoms -/

theorem splitLongGo_parts_strip (cs : Nat) (t : List Char) :
    ∀ f start p, p ∈ splitLongGo cs t f start → ∃ s e, p = strip (slice t s e) := by
  intro f
  induction f with
  | zero => intro start p hp; simp [splitLongGo] at hp
  | succ f ih =>
    intro start p hp
    simp only [splitLongGo] at hp
    split at hp
    · split at hp
      · exact ih _ p hp
      · rcases List.mem_cons.mp hp with hpe | hp2
        · exact ⟨start, nextEnd cs t start, hpe⟩
        · exact ih _ p hp2
    · simp at hp

theorem splitLongText_nice (cs : Nat) (t : List Char) (ht : NiceAtom t) :
    ∀ p ∈ splitLongText cs t, NiceAtom p := by
  intro p hp
  unfold splitLongText at hp
  split at hp
  · rw [List.mem_singleton] at hp
    subst hp
    exact ht
  · have hne : p ≠ [] := (splitLongGo_parts cs t t.length 0 p hp).1
    obtain ⟨s, e, hpe⟩ := splitLongGo_parts_strip cs t t.length 0 p hp
    subst hpe
    refine ⟨hne, (strip_head_last hne).1, (strip_head_last hne).2, ?_⟩
    have hchain : List.Chain' noPW (slice t s e) := (ht.2.2.2.take e).drop s
    exact List.Chain'.infix hchain (strip_within _)

theorem splitLongText_parts_le (cs : Nat) (t : List Char) (hlen : cs < t.length) :
    ∀ p ∈ splitLongText cs t, p.length ≤ cs := by
  intro p hp
  unfold splitLongText at hp
  rw [if_neg (by omega)] at hp
  exact (splitLongGo_parts cs t t.length 0 p hp).2

/-! ### The aggregation loop invariant -/

theorem emitBuffer_eq (st : AggSt) :
    emitBuffer st = if (strip (joinSpace st.buffer)).isEmpty
      then ⟨st.chunks, [], 0, st.idx⟩
      else ⟨st.chunks ++ [⟨strip (joinSpace st.buffer), st.idx,
        (strip (joinSpace st.buffer)).length⟩], [], 0, st.idx + 1⟩ := rfl

theorem emitBuffer_wf {cs : Nat} {st : AggSt} (h : AggWF cs st) :
    AggWF cs (emitBuffer st) := by
  obtain ⟨hch, hidx, hb0, hbl, hatoms⟩ := h
  rw [emitBuffer_eq]
  split
  · exact ⟨hch, hidx, fun _ => rfl, fun hc => absurd rfl hc, by simp⟩
  · next hnonempty =>
    have hbuf : st.buffer ≠ [] := by
      intro hnil
      apply hnonempty
      rw [hnil]
      rfl
    have hjoin : IsJoin (joinSpace st.buffer) := ⟨st.buffer, hbuf, hatoms, rfl⟩
    have hstr : strip (joinSpace st.buffer) = joinSpace st.buffer := (isJoin_facts hjoin).2
    obtain ⟨hlen, hle⟩ := hbl hbuf
    refine ⟨?_, ?_, fun _ => rfl, fun hc => absurd rfl hc, by simp⟩
    · intro ch hc
      rcases List.mem_append.mp hc with hc | hc
      · exact hch ch hc
      · rw [List.mem_singleton] at hc
        subst hc
        refine ⟨rfl, ?_, ?_⟩
        · show (strip (joinSpace st.buffer)).length ≤ cs
          rw [hstr]
          omega
        · show IsJoin (strip (joinSpace st.buffer))
          rw [hstr]
          exact hjoin
    · rw [List.map_append, hidx, List.map_singleton, List.range_succ]

theorem emitParts_wf {cs : Nat} {parts : List (List Char)}
    (hp : ∀ p ∈ parts, NiceAtom p ∧ p.length ≤ cs) :
    ∀ {st : AggSt}, AggWF cs st → AggWF cs (emitParts st parts) := by
  induction parts with
  | nil => intro st h; exact h
  | cons p ps ih =>
    intro st h
    obtain ⟨hch, hidx, hb0, hbl, hatoms⟩ := h
    have hstep : AggWF cs ⟨st.chunks ++ [⟨p, st.idx, p.length⟩],
        st.buffer, st.bufferLen, st.idx + 1⟩ := by
      refine ⟨?_, ?_, hb0, hbl, hatoms⟩
      · intro ch hc
        rcases List.mem_append.mp hc with hc | hc
        · exact hch ch hc
        · rw [List.mem_singleton] at hc
          subst hc
          obtain ⟨hn, hle⟩ := hp p (by simp)
          exact ⟨rfl, hle, ⟨[p], by simp, by simpa using hn, rfl⟩⟩
      · rw [List.map_append, hidx, List.map_singleton, List.range_succ]
    have hrest : ∀ q ∈ ps, NiceAtom q ∧ q.length ≤ cs :=
      fun q hq => hp q (List.mem_cons_of_mem p hq)
    have := ih hrest hstep
    unfold emitParts at this ⊢
    simpa [List.foldl_cons] using this

theorem aggStep_wf {cs : Nat} {st : AggSt} {sent : List Char}
    (h : AggWF cs st) (hs : NiceAtom sent) : AggWF cs (aggStep cs st sent) := by
  by_cases hover : cs < sent.length
  · have heq : aggStep cs st sent = emitParts (emitBuffer st) (splitLongText cs sent) := by
      unfold aggStep
      rw [if_pos hover]
    rw [heq]
    refine emitParts_wf ?_ (emitBuffer_wf h)
    intro p hp
    exact ⟨splitLongText_nice cs sent hs p hp, splitLongText_parts_le cs sent hover p hp⟩
  · by_cases hfits : st.bufferLen + sent.length + 1 ≤ cs
    · have heq : aggStep cs st sent
          = ⟨st.chunks, st.buffer ++ [sent], st.bufferLen + sent.length + 1, st.idx⟩ := by
        unfold aggStep
        rw [if_neg hover, if_pos hfits]
      rw [heq]
      obtain ⟨hch, hidx, hb0, hbl, hatoms⟩ := h
      refine ⟨hch, hidx, by simp, ?_, ?_⟩
      · intro hne
        by_cases hbuf : st.buffer = []
        · have h0 := hb0 hbuf
          constructor
          · show st.bufferLen + sent.length + 1
              = (joinSpace (st.buffer ++ [sent])).length + 1
            rw [hbuf, List.nil_append]
            show st.bufferLen + sent.length + 1 = sent.length + 1
            omega
          · show st.bufferLen + sent.length + 1 ≤ cs + 1
            omega
        · obtain ⟨hlen, hle⟩ := hbl hbuf
          constructor
          · show st.bufferLen + sent.length + 1
              = (joinSpace (st.buffer ++ [sent])).length + 1
            rw [joinSpace_append st.buffer [sent] hbuf (by simp), List.length_append]
            show st.bufferLen + sent.length + 1
              = (joinSpace st.buffer).length + (sent.length + 1) + 1
            omega
          · show st.bufferLen + sent.length + 1 ≤ cs + 1
            omega
      · intro a ha
        rcases List.mem_append.mp ha with ha | ha
        · exact hatoms a ha
        · rw [List.mem_singleton] at ha
          subst ha
          exact hs
    · have heq : aggStep cs st sent
          = ⟨(emitBuffer st).chunks, [sent], sent.length + 1, (emitBuffer st).idx⟩ := by
        unfold aggStep
        rw [if_neg hover, if_neg hfits]
      rw [heq]
      have h1 := emitBuffer_wf h
      obtain ⟨hch, hidx, hb0, hbl, hatoms⟩ := h1
      refine ⟨hch, hidx, by simp, ?_, ?_⟩
      · intro _
        constructor
        · show sent.length + 1 = (joinSpace [sent]).length + 1
          rfl
        · show sent.length + 1 ≤ cs + 1
          omega
      · intro a ha
        rw [List.mem_singleton] at ha
        subst ha
        exact hs

theorem aggFold_wf (cs : Nat) (sentences : List (List Char))
    (hs : ∀ s ∈ sentences, NiceAtom s) :
    ∀ st : AggSt, AggWF cs st → AggWF cs (sentences.foldl (aggStep cs) st) := by
  induction sentences with
  | nil => intro st h; exact h
  | cons s ss ih =>
    intro st h
    exact ih (fun x hx => hs x (List.mem_cons_of_mem s hx)) _
      (aggStep_wf h (hs s (by simp)))

theorem aggWF_init (cs : Nat) : AggWF cs ⟨[], [], 0, 0⟩ := by
  refine ⟨by simp, by simp, fun _ => rfl, fun hc => absurd rfl hc, by simp⟩

/-- The pre-merge chunk list is well-formed, with indices exactly
`0, 1, …, n-1` in order (emission-time contiguity). -/
theorem aggregateChunksPre_wf (cs : Nat) (sentences : List (List Char))
    (hs : ∀ s ∈ sentences, NiceAtom s) :
    (∀ ch ∈ aggregateChunksPre cs sentences, ChunkWF cs ch) ∧
    (aggregateChunksPre cs sentences).map Chunk.chunkIndex
      = List.range (aggregateChunksPre cs sentences).length := by
  have h := emitBuffer_wf (aggFold_wf cs sentences hs ⟨[], [], 0, 0⟩ (aggWF_init cs))
  obtain ⟨hch, hidx, -, -, -⟩ := h
  refine ⟨hch, ?_⟩
  unfold aggregateChunksPre
  rw [hidx]
  congr 1
  have hlen := congrArg List.length hidx
  rw [List.length_map, List.length_range] at hlen
  exact hlen.symm

/-! ### The merge pass -/

theorem mergeChunk_wf {cs : Nat} {prev c : Chunk}
    (hp : ChunkWF cs prev) (hc : ChunkWF cs c)
    (hcond : prev.charLen + 1 + c.charLen ≤ cs) :
    ChunkWF cs (mergeChunk prev c) ∧
    (mergeChunk prev c).charLen = prev.charLen + 1 + c.charLen ∧
    (mergeChunk prev c).chunkIndex = prev.chunkIndex := by
  obtain ⟨hl1, hb1, hj1⟩ := hp
  obtain ⟨hl2, hb2, hj2⟩ := hc
  obtain ⟨hstr, hjoin⟩ := isJoin_merge hj1 hj2
  have hlen : (strip (prev.text ++ ' ' :: c.text)).length
      = prev.charLen + 1 + c.charLen := by
    rw [hstr, List.length_append, List.length_cons, hl1, hl2]
    omega
  unfold mergeChunk
  refine ⟨⟨rfl, ?_, ?_⟩, hlen, rfl⟩
  · show (strip (prev.text ++ ' ' :: c.text)).length ≤ cs
    omega
  · show IsJoin (strip (prev.text ++ ' ' :: c.text))
    rw [hstr]
    exact hjoin

theorem mergeSmallGo_nil (cs minc : Nat) (acc : List Chunk) :
    mergeSmallGo cs minc acc [] = acc.reverse := by
  cases acc <;> rfl

theorem mergeSmallGo_wf (cs minc : Nat) :
    ∀ (rest acc : List Chunk),
      (∀ ch ∈ acc, ChunkWF cs ch) → (∀ ch ∈ rest, ChunkWF cs ch) →
      (∀ ch ∈ mergeSmallGo cs minc acc rest, ChunkWF cs ch) ∧
      List.Sublist ((mergeSmallGo cs minc acc rest).map Chunk.chunkIndex)
        (acc.reverse.map Chunk.chunkIndex ++ rest.map Chunk.chunkIndex) := by
  intro rest
  induction rest with
  | nil =>
    intro acc hacc hrest
    constructor
    · intro ch hch
      rw [mergeSmallGo_nil, List.mem_reverse] at hch
      exact hacc ch hch
    · rw [mergeSmallGo_nil, List.map_nil, List.append_nil]
  | cons c rest ih =>
    intro acc hacc hrest
    have hcwf : ChunkWF cs c := hrest c (by simp)
    have hrest2 : ∀ ch ∈ rest, ChunkWF cs ch :=
      fun ch hc2 => hrest ch (List.mem_cons_of_mem c hc2)
    cases acc with
    | nil =>
      have heq : mergeSmallGo cs minc [] (c :: rest) = mergeSmallGo cs minc [c] rest := rfl
      rw [heq]
      have h := ih [c] (by intro ch hch; rw [List.mem_singleton] at hch; subst hch; exact hcwf)
        hrest2
      refine ⟨h.1, ?_⟩
      simpa using h.2
    | cons prev accT =>
      have haccT : ∀ ch ∈ accT, ChunkWF cs ch :=
        fun ch hc2 => hacc ch (List.mem_cons_of_mem prev hc2)
      have hprev : ChunkWF cs prev := hacc prev (by simp)
      by_cases hcond : (prev.charLen < minc && prev.charLen + 1 + c.charLen ≤ cs) = true
      · have heq : mergeSmallGo cs minc (prev :: accT) (c :: rest)
            = mergeSmallGo cs minc (mergeChunk prev c :: accT) rest := by
          show (if prev.charLen < minc && prev.charLen + 1 + c.charLen ≤ cs then
            mergeSmallGo cs minc (mergeChunk prev c :: accT) rest
            else mergeSmallGo cs minc (c :: prev :: accT) rest) = _
          rw [if_pos hcond]
        rw [heq]
        rw [Bool.and_eq_true, decide_eq_true_eq, decide_eq_true_eq] at hcond
        obtain ⟨hm, hmwfl, hmidx⟩ := mergeChunk_wf hprev hcwf hcond.2
        have h := ih (mergeChunk prev c :: accT)
          (by
            intro ch hch
            rcases List.mem_cons.mp hch with hch | hch
            · subst hch; exact hm
            · exact haccT ch hch)
          hrest2
        refine ⟨h.1, ?_⟩
        have hsub := h.2
        rw [List.reverse_cons, List.map_append, List.map_singleton, hmidx] at hsub
        rw [List.reverse_cons, List.map_append, List.map_singleton, List.map_cons]
        refine hsub.trans ?_
        exact List.Sublist.append_left (List.sublist_cons_self _ _) _
      · have heq : mergeSmallGo cs minc (prev :: accT) (c :: rest)
            = mergeSmallGo cs minc (c :: prev :: accT) rest := by
          show (if prev.charLen < minc && prev.charLen + 1 + c.charLen ≤ cs then
            mergeSmallGo cs minc (mergeChunk prev c :: accT) rest
            else mergeSmallGo cs minc (c :: prev :: accT) rest) = _
          rw [if_neg hcond]
        rw [heq]
        have h := ih (c :: prev :: accT)
          (by
            intro ch hch
            rcases List.mem_cons.mp hch with hch | hch
            · subst hch; exact hcwf
            · exact hacc ch hch)
          hrest2
        refine ⟨h.1, ?_⟩
        have hsub := h.2
        rw [List.reverse_cons, List.map_append, List.map_singleton, List.append_assoc,
          List.singleton_append] at hsub
        rw [List.map_cons]
        exact hsub

theorem mergeOK_mono {cs minc : Nat} {a b b2 : Chunk}
    (h : mergeOK cs minc a b) (hle : b.charLen ≤ b2.charLen) : mergeOK cs minc a b2 := by
  unfold mergeOK at h ⊢
  omega

theorem chain'_concat_mono {cs minc : Nat} {l : List Chunk} {a b : Chunk}
    (h : List.Chain' (mergeOK cs minc) (l ++ [a])) (hab : a.charLen ≤ b.charLen) :
    List.Chain' (mergeOK cs minc) (l ++ [b]) := by
  rw [List.chain'_append] at h ⊢
  obtain ⟨h1, -, h3⟩ := h
  refine ⟨h1, List.chain'_singleton b, ?_⟩
  intro x hx y hy
  have hyb : y = b := by
    have := hy
    simp only [List.head?_cons, Option.mem_def, Option.some.injEq] at this
    exact this.symm
  subst hyb
  exact mergeOK_mono (h3 x hx a rfl) hab

theorem mergeSmallGo_chain (cs minc : Nat) :
    ∀ (rest acc : List Chunk),
      (∀ ch ∈ acc, ChunkWF cs ch) → (∀ ch ∈ rest, ChunkWF cs ch) →
      List.Chain' (mergeOK cs minc) acc.reverse →
      List.Chain' (mergeOK cs minc) (mergeSmallGo cs minc acc rest) := by
  intro rest
  induction rest with
  | nil =>
    intro acc hacc hrest hchain
    rw [mergeSmallGo_nil]
    exact hchain
  | cons c rest ih =>
    intro acc hacc hrest hchain
    have hcwf : ChunkWF cs c := hrest c (by simp)
    have hrest2 : ∀ ch ∈ rest, ChunkWF cs ch :=
      fun ch h => hrest ch (List.mem_cons_of_mem c h)
    cases acc with
    | nil =>
      have heq : mergeSmallGo cs minc [] (c :: rest) = mergeSmallGo cs minc [c] rest := rfl
      rw [heq]
      refine ih [c] ?_ hrest2 (List.chain'_singleton c)
      intro ch hch
      rw [List.mem_singleton] at hch
      subst hch
      exact hcwf
    | cons prev accT =>
      have hprev : ChunkWF cs prev := hacc prev (by simp)
      have haccT : ∀ ch ∈ accT, ChunkWF cs ch :=
        fun ch h => hacc ch (List.mem_cons_of_mem prev h)
      by_cases hcond : (prev.charLen < minc && prev.charLen + 1 + c.charLen ≤ cs) = true
      · have heq : mergeSmallGo cs minc (prev :: accT) (c :: rest)
            = mergeSmallGo cs minc (mergeChunk prev c :: accT) rest := by
          show (if prev.charLen < minc && prev.charLen + 1 + c.charLen ≤ cs then
            mergeSmallGo cs minc (mergeChunk prev c :: accT) rest
            else mergeSmallGo cs minc (c :: prev :: accT) rest) = _
          rw [if_pos hcond]
        rw [heq]
        rw [Bool.and_eq_true, decide_eq_true_eq, decide_eq_true_eq] at hcond
        obtain ⟨hmwf, hmlen, -⟩ := mergeChunk_wf hprev hcwf hcond.2
        refine ih (mergeChunk prev c :: accT) ?_ hrest2 ?_
        · intro ch hch
          rcases List.mem_cons.mp hch with hch | hch
          · subst hch; exact hmwf
          · exact haccT ch hch
        · rw [List.reverse_cons] at hchain
          rw [List.reverse_cons]
          exact chain'_concat_mono hchain (by omega)
      · have heq : mergeSmallGo cs minc (prev :: accT) (c :: rest)
            = mergeSmallGo cs minc (c :: prev :: accT) rest := by
          show (if prev.charLen < minc && prev.charLen + 1 + c.charLen ≤ cs then
            mergeSmallGo cs minc (mergeChunk prev c :: accT) rest
            else mergeSmallGo cs minc (c :: prev :: accT) rest) = _
          rw [if_neg hcond]
        rw [heq]
        refine ih (c :: prev :: accT) ?_ hrest2 ?_
        · intro ch hch
          rcases List.mem_cons.mp hch with hch | hch
          · subst hch; exact hcwf
          · exact hacc ch hch
        · rw [List.reverse_cons]
          rw [List.chain'_append]
          refine ⟨hchain, List.chain'_singleton c, ?_⟩
          intro x hx y hy
          have hyc : y = c := by
            have := hy
            simp only [List.head?_cons, Option.mem_def, Option.some.injEq] at this
            exact this.symm
          subst hyc
          have hxprev : x = prev := by
            rw [List.reverse_cons, List.getLast?_concat] at hx
            have := hx
            simp only [Option.mem_def, Option.some.injEq] at this
            exact this.symm
          subst hxprev
          unfold mergeOK
          intro hcon
          apply hcond
          rw [Bool.and_eq_true, decide_eq_true_eq, decide_eq_true_eq]
          exact hcon

theorem mergeSmallGo_cascade (cs minc : Nat) :
    ∀ (rest : List Chunk) (prev : Chunk) (accT : List Chunk),
      cascadeOKB cs minc prev rest = true →
      ∃ m : Chunk, mergeSmallGo cs minc (prev :: accT) rest = (m :: accT).reverse := by
  intro rest
  induction rest with
  | nil =>
    intro prev accT _
    exact ⟨prev, mergeSmallGo_nil cs minc (prev :: accT)⟩
  | cons c rest ih =>
    intro prev accT hc
    simp only [cascadeOKB, Bool.and_eq_true, decide_eq_true_eq] at hc
    obtain ⟨⟨h1, h2⟩, h3⟩ := hc
    have hcond : (prev.charLen < minc && prev.charLen + 1 + c.charLen ≤ cs) = true := by
      simp [h1, h2]
    have heq : mergeSmallGo cs minc (prev :: accT) (c :: rest)
        = mergeSmallGo cs minc (mergeChunk prev c :: accT) rest := by
      show (if prev.charLen < minc && prev.charLen + 1 + c.charLen ≤ cs then
        mergeSmallGo cs minc (mergeChunk prev c :: accT) rest
        else mergeSmallGo cs minc (c :: prev :: accT) rest) = _
      rw [if_pos hcond]
    rw [heq]
    exact ih (mergeChunk prev c) accT h3

theorem mergeSmallChunks_cascade (cs minc : Nat) (c0 : Chunk) (rest : List Chunk)
    (h : cascadeOKB cs minc c0 rest = true) :
    ∃ m, mergeSmallChunks cs minc (c0 :: rest) = [m] := by
  obtain ⟨m, hm⟩ := mergeSmallGo_cascade cs minc rest c0 [] h
  refine ⟨m, ?_⟩
  unfold mergeSmallChunks
  have heq : mergeSmallGo cs minc [] (c0 :: rest) = mergeSmallGo cs minc [c0] rest := rfl
  rw [heq, hm]
  rfl

theorem processText_eq (cs minc : Nat) (t : List Char) :
    processText cs minc t = if (splitIntoSentences t).isEmpty
      then [⟨t, 0, t.length⟩]
      else aggregateSentencesToChunks cs minc (splitIntoSentences t) := rfl

theorem filterNW_flatten (ls : List (List Char)) :
    filterNW ls.flatten = (ls.map filterNW).flatten := by
  induction ls with
  | nil => rfl
  | cons a as ih =>
    rw [List.flatten_cons, filterNW_append, ih, List.map_cons, List.flatten_cons]

theorem filterNW_eq_nil_iff_strip {l : List Char} : filterNW l = [] ↔ strip l = [] := by
  constructor
  · intro h
    rw [strip_eq_nil_iff]
    intro c hc
    by_contra hcw
    have hm : c ∈ filterNW l := by
      unfold filterNW
      rw [List.mem_filter]
      exact ⟨hc, by simp [hcw]⟩
    rw [h] at hm
    simp at hm
  · intro h
    exact filterNW_eq_nil_of_ws (strip_eq_nil_iff.mp h)

/-- An input with any non-whitespace character yields a non-empty
sentence list, so the verbatim fallback of `process_text` is not
taken. -/
theorem splitIntoSentences_ne_nil {t : List Char} (h : strip t ≠ []) :
    splitIntoSentences t ≠ [] := by
  intro hnil
  unfold splitIntoSentences at hnil
  rw [List.map_eq_nil_iff, List.filter_eq_nil_iff] at hnil
  have hall : ((splitSentences (strip t)).map filterNW).flatten = [] := by
    rw [List.flatten_eq_nil_iff]
    intro l hl
    rw [List.mem_map] at hl
    obtain ⟨p, hp, rfl⟩ := hl
    have hcond := hnil p hp
    by_cases hpe : p = []
    · rw [hpe]
      rfl
    · have hspe : strip p = [] := by
        by_contra hspe
        apply hcond
        rw [Bool.and_eq_true]
        exact ⟨by simp [hpe], by simp [hspe]⟩
      exact filterNW_eq_nil_iff_strip.mpr hspe
  have h2 := splitSentences_filterNW (strip t)
  rw [filterNW_flatten, hall] at h2
  rw [filterNW_strip] at h2
  exact h (filterNW_eq_nil_iff_strip.mp h2.symm)

/-- C4 (amended): for every input text that contains at least one
non-whitespace character (so the whitespace-only verbatim fallback is
not taken), every chunk returned by `process_text` has
`char_len ≤ chunk_size_chars`: buffer chunks, oversized-sentence
slices and merged chunks all respect the bound. -/
theorem c4_char_len_bound (cs minc : Nat) (t : List Char) (h : strip t ≠ []) :
    ∀ ch ∈ processText cs minc t, ch.charLen ≤ cs := by
  intro ch hch
  rw [processText_eq,
    if_neg (by simpa [List.isEmpty_iff] using splitIntoSentences_ne_nil h)] at hch
  unfold aggregateSentencesToChunks mergeSmallChunks at hch
  have hpre := aggregateChunksPre_wf cs (splitIntoSentences t) (splitIntoSentences_nice t)
  have hres := (mergeSmallGo_wf cs minc (aggregateChunksPre cs (splitIntoSentences t)) []
    (by simp) hpre.1).1 ch hch
  obtain ⟨h1, h2, -⟩ := hres
  omega

/-- C4 witness: a chunk of a concrete run. -/
theorem c4_witness : (⟨lc "Cc. a", 0, 5⟩ : Chunk).charLen ≤ 20 :=
  c4_char_len_bound 20 5 tinyChunksInput (by decide) ⟨lc "Cc. a", 0, 5⟩ (by decide)

/-- C2 (amended): `chunk_index` values are assigned contiguously
`0, 1, …, n-1` at emission time (before the merge pass), and the
returned chunks carry strictly increasing — hence unique,
emission-ordered — indices; but after merging the returned sequence may
have index gaps (an absorbed chunk's index is discarded, see the
counterexample). -/
theorem c2_chunk_indices (cs minc : Nat) (t : List Char) :
    ((aggregateChunksPre cs (splitIntoSentences t)).map Chunk.chunkIndex
      = List.range (aggregateChunksPre cs (splitIntoSentences t)).length) ∧
    List.Pairwise (· < ·) ((processText cs minc t).map Chunk.chunkIndex) := by
  have hpre := aggregateChunksPre_wf cs (splitIntoSentences t) (splitIntoSentences_nice t)
  refine ⟨hpre.2, ?_⟩
  rw [processText_eq]
  split
  · simp
  · unfold aggregateSentencesToChunks mergeSmallChunks
    have hsub := (mergeSmallGo_wf cs minc (aggregateChunksPre cs (splitIntoSentences t)) []
      (by simp) hpre.1).2
    have hr : List.Pairwise (fun a b : Nat => a < b)
        ((aggregateChunksPre cs (splitIntoSentences t)).map Chunk.chunkIndex) := by
      rw [hpre.2]
      exact List.pairwise_lt_range _
    exact hr.sublist (by simpa using hsub)

theorem aggregateChunksPre_nil (cs : Nat) : aggregateChunksPre cs [] = [] := rfl

/-- C6 (amended): after the merge pass no adjacent output chunks
violate merge-maximality (the earlier one small AND the pair mergeable
within the bound); and a run of consecutive pre-merge chunks fully
cascade-merges into a single chunk whenever before EACH successive
absorption the accumulated chunk is still below `min_chunk_chars` and
the absorption stays within `chunk_size_chars` (merely staying within
`chunk_size_chars` is not enough, see the counterexample). -/
theorem c6_merge_maximal (cs minc : Nat) (t : List Char) :
    List.Chain' (mergeOK cs minc) (processText cs minc t) ∧
    (∀ c0 rest, aggregateChunksPre cs (splitIntoSentences t) = c0 :: rest →
      cascadeOKB cs minc c0 rest = true →
      ∃ m, processText cs minc t = [m]) := by
  have hpre := aggregateChunksPre_wf cs (splitIntoSentences t) (splitIntoSentences_nice t)
  constructor
  · rw [processText_eq]
    split
    · exact List.chain'_singleton _
    · unfold aggregateSentencesToChunks mergeSmallChunks
      exact mergeSmallGo_chain cs minc (aggregateChunksPre cs (splitIntoSentences t)) []
        (by simp) hpre.1 (by simp)
  · intro c0 rest hpre2 hcasc
    have hsne : ¬ (splitIntoSentences t).isEmpty = true := by
      intro he
      rw [List.isEmpty_iff] at he
      rw [he, aggregateChunksPre_nil] at hpre2
      exact absurd hpre2 (by simp)
    rw [processText_eq, if_neg hsne]
    unfold aggregateSentencesToChunks
    rw [hpre2]
    exact mergeSmallChunks_cascade cs minc c0 rest hcasc

/-- C6 witness: the cascade conjunct on the concrete three-tiny-chunks
input with `min_chunk_chars = 10`, where the full cascade applies. -/
theorem c6_witness : ∃ m, processText 20 10 tinyChunksInput = [m] :=
  (c6_merge_maximal 20 10 tinyChunksInput).2 ⟨lc "Cc.", 0, 3⟩
    [⟨lc "a", 1, 1⟩, ⟨lc "b.", 2, 2⟩] (by decide) (by decide)

/-! ### Non-whitespace preservation through the whole pipeline (C5) -/

theorem slice_append_drop (t : List Char) (start e : Nat) (h1 : start ≤ e) :
    slice t start e ++ t.drop e = t.drop start := by
  by_cases h2 : start ≤ t.length
  · unfold slice
    conv_rhs => rw [← List.take_append_drop e t]
    rw [List.drop_append_eq_append_drop]
    have h0 : start - (t.take e).length = 0 := by
      rw [List.length_take]
      omega
    rw [h0, List.drop_zero]
  · have ha : t.drop start = [] := List.drop_eq_nil_of_le (by omega)
    have hb : t.drop e = [] := List.drop_eq_nil_of_le (by omega)
    have hc : slice t start e = [] := by
      unfold slice
      apply List.drop_eq_nil_of_le
      rw [List.length_take]
      omega
    rw [ha, hb, hc]
    rfl

theorem splitLongGo_filterNW (cs : Nat) (t : List Char) (hcs : 1 ≤ cs) :
    ∀ f start, t.length - start ≤ f →
      filterNW (splitLongGo cs t f start).flatten = filterNW (t.drop start) := by
  intro f
  induction f with
  | zero =>
    intro start h
    have : t.drop start = [] := List.drop_eq_nil_of_le (by omega)
    rw [this]
    rfl
  | succ f ih =>
    intro start h
    by_cases hs : start < t.length
    · have hlt := nextEnd_lt cs t start hcs hs
      have hle := nextEnd_le_len cs t start
      have hrec := ih (nextEnd cs t start) (by omega)
      have hsplit : filterNW (slice t start (nextEnd cs t start))
          ++ filterNW (t.drop (nextEnd cs t start)) = filterNW (t.drop start) := by
        rw [← filterNW_append, slice_append_drop t start (nextEnd cs t start) (by omega)]
      simp only [splitLongGo, if_pos hs]
      split
      · next hemp =>
        rw [hrec]
        have hpe : filterNW (slice t start (nextEnd cs t start)) = [] := by
          rw [← filterNW_strip]
          rw [List.isEmpty_iff] at hemp
          rw [hemp]
          rfl
        rw [← hsplit, hpe, List.nil_append]
      · rw [List.flatten_cons, filterNW_append, hrec, filterNW_strip]
        exact hsplit
    · simp only [splitLongGo, if_neg hs]
      have : t.drop start = [] := List.drop_eq_nil_of_le (by omega)
      rw [this]
      rfl

theorem splitLongText_filterNW (cs : Nat) (t : List Char) (hcs : 1 ≤ cs) :
    filterNW (splitLongText cs t).flatten = filterNW t := by
  unfold splitLongText
  split
  · simp
  · rw [splitLongGo_filterNW cs t hcs t.length 0 (by omega), List.drop_zero]

theorem emitParts_chunks (parts : List (List Char)) :
    ∀ st : AggSt,
      (emitParts st parts).chunks.map Chunk.text = st.chunks.map Chunk.text ++ parts ∧
      (emitParts st parts).buffer = st.buffer := by
  induction parts with
  | nil => intro st; exact ⟨by simp [emitParts], rfl⟩
  | cons p ps ih =>
    intro st
    have heq : emitParts st (p :: ps)
        = emitParts ⟨st.chunks ++ [⟨p, st.idx, p.length⟩],
            st.buffer, st.bufferLen, st.idx + 1⟩ ps := by
      unfold emitParts
      rw [List.foldl_cons]
    rw [heq]
    obtain ⟨h1, h2⟩ := ih ⟨st.chunks ++ [⟨p, st.idx, p.length⟩],
      st.buffer, st.bufferLen, st.idx + 1⟩
    refine ⟨?_, h2⟩
    rw [h1]
    simp

theorem emitBuffer_content (st : AggSt) :
    filterNW ((emitBuffer st).chunks.map Chunk.text).flatten = filterNW (aggContent st) := by
  rw [emitBuffer_eq]
  unfold aggContent
  split
  · next hemp =>
    rw [List.isEmpty_iff] at hemp
    have h0 : filterNW (joinSpace st.buffer) = [] := by
      rw [← filterNW_strip, hemp]
      rfl
    rw [filterNW_append, h0, List.append_nil]
  · next hemp =>
    rw [List.map_append, List.map_singleton, List.flatten_append, filterNW_append,
      filterNW_append]
    simp only [List.flatten_cons, List.flatten_nil, List.append_nil]
    rw [filterNW_strip]

theorem filterNW_space_cons (b : List Char) : filterNW (' ' :: b) = filterNW b := by
  unfold filterNW
  rw [List.filter_cons_of_neg]
  simp [isWS]

theorem filterNW_joinSpace_concat (as : List (List Char)) (b : List Char) :
    filterNW (joinSpace (as ++ [b])) = filterNW (joinSpace as) ++ filterNW b := by
  cases as with
  | nil => rfl
  | cons a rest =>
    rw [joinSpace_append (a :: rest) [b] (by simp) (by simp), filterNW_append,
      filterNW_space_cons]
    rfl

theorem aggStep_content (cs : Nat) (st : AggSt) (sent : List Char) (hcs : 1 ≤ cs) :
    filterNW (aggContent (aggStep cs st sent))
      = filterNW (aggContent st) ++ filterNW sent := by
  by_cases hover : cs < sent.length
  · have heq : aggStep cs st sent = emitParts (emitBuffer st) (splitLongText cs sent) := by
      unfold aggStep
      rw [if_pos hover]
    rw [heq]
    obtain ⟨h1, h2⟩ := emitParts_chunks (splitLongText cs sent) (emitBuffer st)
    have hb : (emitBuffer st).buffer = [] := by
      rw [emitBuffer_eq]
      split <;> rfl
    unfold aggContent
    rw [h1, h2, hb]
    show filterNW (((emitBuffer st).chunks.map Chunk.text ++ splitLongText cs sent).flatten
      ++ joinSpace []) = _
    rw [List.flatten_append]
    show filterNW (((emitBuffer st).chunks.map Chunk.text).flatten
      ++ (splitLongText cs sent).flatten ++ []) = _
    rw [List.append_nil, filterNW_append, emitBuffer_content,
      splitLongText_filterNW cs sent hcs]
    rfl
  · by_cases hfits : st.bufferLen + sent.length + 1 ≤ cs
    · have heq : aggStep cs st sent
          = ⟨st.chunks, st.buffer ++ [sent], st.bufferLen + sent.length + 1, st.idx⟩ := by
        unfold aggStep
        rw [if_neg hover, if_pos hfits]
      rw [heq]
      unfold aggContent
      show filterNW ((st.chunks.map Chunk.text).flatten ++ joinSpace (st.buffer ++ [sent]))
        = _
      rw [filterNW_append, filterNW_joinSpace_concat, filterNW_append, List.append_assoc]
    · have heq : aggStep cs st sent
          = ⟨(emitBuffer st).chunks, [sent], sent.length + 1, (emitBuffer st).idx⟩ := by
        unfold aggStep
        rw [if_neg hover, if_neg hfits]
      rw [heq]
      unfold aggContent
      show filterNW (((emitBuffer st).chunks.map Chunk.text).flatten ++ joinSpace [sent]) = _
      rw [filterNW_append, emitBuffer_content]
      rfl

theorem aggFold_content (cs : Nat) (hcs : 1 ≤ cs) (sentences : List (List Char)) :
    ∀ st : AggSt, filterNW (aggContent (sentences.foldl (aggStep cs) st))
      = filterNW (aggContent st) ++ filterNW sentences.flatten := by
  induction sentences with
  | nil => intro st; simp [filterNW]
  | cons s ss ih =>
    intro st
    rw [List.foldl_cons, ih, aggStep_content cs st s hcs, List.flatten_cons,
      filterNW_append, List.append_assoc]

theorem aggregateChunksPre_filterNW (cs : Nat) (hcs : 1 ≤ cs)
    (sentences : List (List Char)) :
    filterNW ((aggregateChunksPre cs sentences).map Chunk.text).flatten
      = filterNW sentences.flatten := by
  unfold aggregateChunksPre
  rw [emitBuffer_content, aggFold_content cs hcs sentences]
  rfl

theorem mergeChunk_text_filterNW (prev c : Chunk) :
    filterNW (mergeChunk prev c).text = filterNW prev.text ++ filterNW c.text := by
  unfold mergeChunk
  show filterNW (strip (prev.text ++ ' ' :: c.text)) = _
  rw [filterNW_strip, filterNW_append, filterNW_space_cons]

theorem mergeSmallGo_filterNW (cs minc : Nat) :
    ∀ (rest acc : List Chunk),
      filterNW ((mergeSmallGo cs minc acc rest).map Chunk.text).flatten
        = filterNW (acc.reverse.map Chunk.text).flatten
          ++ filterNW ((rest.map Chunk.text).flatten) := by
  intro rest
  induction rest with
  | nil =>
    intro acc
    rw [mergeSmallGo_nil]
    simp [filterNW]
  | cons c rest ih =>
    intro acc
    cases acc with
    | nil =>
      rw [show mergeSmallGo cs minc [] (c :: rest) = mergeSmallGo cs minc [c] rest from rfl,
        ih [c]]
      simp [filterNW, List.filter_append]
    | cons prev accT =>
      by_cases hcond : (prev.charLen < minc && prev.charLen + 1 + c.charLen ≤ cs) = true
      · have heq : mergeSmallGo cs minc (prev :: accT) (c :: rest)
            = mergeSmallGo cs minc (mergeChunk prev c :: accT) rest := by
          show (if prev.charLen < minc && prev.charLen + 1 + c.charLen ≤ cs then
            mergeSmallGo cs minc (mergeChunk prev c :: accT) rest
            else mergeSmallGo cs minc (c :: prev :: accT) rest) = _
          rw [if_pos hcond]
        rw [heq, ih (mergeChunk prev c :: accT)]
        simp [filterNW_append, mergeChunk_text_filterNW]
      · have heq : mergeSmallGo cs minc (prev :: accT) (c :: rest)
            = mergeSmallGo cs minc (c :: prev :: accT) rest := by
          show (if prev.charLen < minc && prev.charLen + 1 + c.charLen ≤ cs then
            mergeSmallGo cs minc (mergeChunk prev c :: accT) rest
            else mergeSmallGo cs minc (c :: prev :: accT) rest) = _
          rw [if_neg hcond]
        rw [heq, ih (c :: prev :: accT)]
        simp [filterNW_append]

theorem splitIntoSentences_filterNW (t : List Char) :
    filterNW (splitIntoSentences t).flatten = filterNW t := by
  unfold splitIntoSentences
  rw [filterNW_flatten, List.map_map]
  have hcomp : filterNW ∘ strip = filterNW := funext filterNW_strip
  rw [hcomp]
  have hfil : ∀ (ps : List (List Char)),
      ((ps.filter (fun s => !s.isEmpty && !(strip s).isEmpty)).map filterNW).flatten
        = (ps.map filterNW).flatten := by
    intro ps
    induction ps with
    | nil => rfl
    | cons p ps ihp =>
      by_cases hp : (!p.isEmpty && !(strip p).isEmpty) = true
      · rw [List.filter_cons, if_pos (by simpa using hp), List.map_cons, List.flatten_cons,
          ihp, List.map_cons, List.flatten_cons]
      · rw [List.filter_cons, if_neg (by simpa using hp), ihp, List.map_cons,
          List.flatten_cons]
        have hpn : filterNW p = [] := by
          rw [Bool.and_eq_true] at hp
          by_cases hpe : p = []
          · rw [hpe]
            rfl
          · have hspe : strip p = [] := by
              by_contra hspe
              exact hp ⟨by simp [hpe], by simp [hspe]⟩
            exact filterNW_eq_nil_iff_strip.mpr hspe
        rw [hpn, List.nil_append]
  rw [hfil, ← filterNW_flatten, splitSentences_filterNW, filterNW_strip]

/-- C5: the chunker drops only whitespace.  The non-whitespace
characters of the concatenated output texts are exactly the
non-whitespace characters of the input, in order; in particular every
non-whitespace input character appears, in order, in the output. -/
theorem c5_no_char_dropped (cs minc : Nat) (t : List Char) (hcs : 1 ≤ cs) :
    filterNW ((processText cs minc t).map Chunk.text).flatten = filterNW t ∧
    List.Sublist (filterNW t) ((processText cs minc t).map Chunk.text).flatten := by
  have hmain : filterNW ((processText cs minc t).map Chunk.text).flatten = filterNW t := by
    rw [processText_eq]
    split
    · simp
    · unfold aggregateSentencesToChunks mergeSmallChunks
      rw [mergeSmallGo_filterNW]
      show filterNW (([] : List Chunk).reverse.map Chunk.text).flatten
        ++ filterNW (((aggregateChunksPre cs (splitIntoSentences t)).map Chunk.text).flatten)
        = _
      rw [aggregateChunksPre_filterNW cs hcs, splitIntoSentences_filterNW]
      rfl
  refine ⟨hmain, ?_⟩
  rw [← hmain]
  exact List.filter_sublist _

/-- C5 witness: the statement at a concrete input. -/
theorem c5_witness :
    filterNW ((processText 20 5 tinyChunksInput).map Chunk.text).flatten
      = filterNW tinyChunksInput ∧
    List.Sublist (filterNW tinyChunksInput)
      ((processText 20 5 tinyChunksInput).map Chunk.text).flatten :=
  c5_no_char_dropped 20 5 tinyChunksInput (by decide)

/-! ### Re-chunking an emitted chunk (C3)

An emitted chunk text is a space-join of atoms; re-splitting it cuts
exactly at (a subset of) the single-space joins, so re-joining the
pieces restores the text, and since everything fits in one buffer when
the length is strictly below `chunk_size_chars`, re-chunking yields the
chunk back unchanged. -/

/-- One unfolding step of the scanner in normal mode. -/
theorem splitSentGo_false_cons (lastP : Bool) (cur : List Char) (c : Char)
    (cs : List Char) :
    splitSentGo false lastP cur (c :: cs)
      = if lastP && isWS c then cur.reverse :: splitSentGo true false [] cs
        else splitSentGo false (isPunct c) (c :: cur) cs := rfl

/-- One unfolding step of the scanner in whitespace-skipping mode. -/
theorem splitSentGo_true_cons (cur : List Char) (c : Char) (cs : List Char) :
    splitSentGo true false cur (c :: cs)
      = if isWS c then splitSentGo true false cur cs
        else splitSentGo false (isPunct c) (c :: cur) cs := rfl

theorem joinSpace_singleton (a : List Char) : joinSpace [a] = a := rfl

theorem aLastP_cons (c : Char) (a2 : List Char) (lastP : Bool) :
    aLastP (c :: a2) lastP = aLastP a2 (isPunct c) := by
  cases a2 with
  | nil => rfl
  | cons d a3 =>
    unfold aLastP
    rw [List.getLast?_cons_cons]
    cases h : (d :: a3).getLast? with
    | none => exact absurd (List.getLast?_eq_none_iff.mp h) (by simp)
    | some g => rfl

/-- The scanner consumes a boundary-free segment without cutting. -/
theorem splitSentGo_through :
    ∀ (a : List Char) (lastP : Bool) (cur rest : List Char),
      List.Chain' noPW a →
      (lastP = true → ∀ c0, a.head? = some c0 → isWS c0 = false) →
      splitSentGo false lastP cur (a ++ rest)
        = splitSentGo false (aLastP a lastP) (a.reverse ++ cur) rest := by
  intro a
  induction a with
  | nil =>
    intro lastP cur rest _ _
    rfl
  | cons c a2 ih =>
    intro lastP cur rest hchain hhead
    have hnocut : (lastP && isWS c) = false := by
      cases hlp : lastP with
      | false => rfl
      | true =>
        have := hhead hlp c rfl
        rw [Bool.true_and, this]
    rw [List.cons_append, splitSentGo_false_cons, if_neg (by rw [hnocut]; simp)]
    have hh2 : isPunct c = true → ∀ c0, a2.head? = some c0 → isWS c0 = false := by
      intro hpc c0 hc0
      have := List.Chain'.rel_head? hchain (Option.mem_def.mpr hc0)
      unfold noPW at this
      by_contra hws
      rw [Bool.not_eq_false] at hws
      exact this ⟨hpc, hws⟩
    rw [ih (isPunct c) (c :: cur) rest hchain.tail hh2, aLastP_cons]
    congr 1
    rw [List.reverse_cons, List.append_assoc, List.singleton_append]

/-- After a cut the scanner skips the whitespace run; when the next
character is not whitespace it continues exactly like a fresh scan. -/
theorem splitSentGo_skipExit (l : List Char)
    (hh : ∀ c0, l.head? = some c0 → isWS c0 = false) :
    splitSentGo true false [] l = splitSentGo false false [] l := by
  cases l with
  | nil => rfl
  | cons c cs =>
    have hc : isWS c = false := hh c rfl
    rw [splitSentGo_true_cons, if_neg (by rw [hc]; simp),
      splitSentGo_false_cons, if_neg (by simp)]

/-- Scanning the space-join of atoms yields non-empty pieces that
re-join (with single spaces) to the original text, each piece free of
leading and trailing whitespace. -/
theorem splitSentGo_join :
    ∀ (atoms : List (List Char)), atoms ≠ [] → (∀ a ∈ atoms, NiceAtom a) →
      ∀ (cur : List Char) (lastP : Bool),
      ∃ pieces : List (List Char),
        splitSentGo false lastP cur (joinSpace atoms) = pieces ∧
        pieces ≠ [] ∧
        joinSpace pieces = cur.reverse ++ joinSpace atoms ∧
        (∀ p ∈ pieces, p ≠ []) ∧
        ((∀ c0, cur.getLast? = some c0 → isWS c0 = false) →
          ∀ p ∈ pieces, (∀ c0, p.head? = some c0 → isWS c0 = false) ∧
            (∀ c0, p.getLast? = some c0 → isWS c0 = false)) := by
  intro atoms
  induction atoms with
  | nil => intro h; exact absurd rfl h
  | cons a rest ih =>
    intro _ hnice cur lastP
    have ha : NiceAtom a := hnice a (by simp)
    obtain ⟨hane, hahead, halast, hachain⟩ := ha
    cases rest with
    | nil =>
      have hjs : joinSpace [cur.reverse ++ a] = cur.reverse ++ joinSpace [a] := rfl
      refine ⟨[cur.reverse ++ a], ?_, by simp, hjs, ?_, ?_⟩
      · show splitSentGo false lastP cur (joinSpace [a]) = _
        have hj : joinSpace [a] = a ++ [] := by
          rw [List.append_nil]
          exact joinSpace_singleton a
        rw [hj, splitSentGo_through a lastP cur [] hachain (fun _ => hahead)]
        show [(a.reverse ++ cur).reverse] = _
        rw [List.reverse_append, List.reverse_reverse]
      · intro p hp
        rw [List.mem_singleton] at hp
        subst hp
        intro hnil
        rcases List.append_eq_nil.mp hnil with ⟨-, h2⟩
        exact hane h2
      · intro hcur p hp
        rw [List.mem_singleton] at hp
        subst hp
        constructor
        · intro c0 hc0
          rw [List.head?_append] at hc0
          cases hcr : cur.reverse.head? with
          | none =>
            rw [hcr] at hc0
            exact hahead c0 hc0
          | some d =>
            rw [hcr] at hc0
            have hd : c0 = d := by
              have : (some d).or a.head? = some d := rfl
              rw [this] at hc0
              injection hc0.symm
            subst hd
            rw [List.head?_reverse] at hcr
            exact hcur c0 hcr
        · intro c0 hc0
          rw [List.getLast?_append] at hc0
          cases hag : a.getLast? with
          | none =>
            obtain ⟨x, xs, hx⟩ := List.exists_cons_of_ne_nil hane
            rw [hx] at hag
            exact absurd hag (by simp [List.getLast?_eq_none_iff])
          | some g =>
            rw [hag] at hc0
            have : c0 = g := by
              have h2 : (some g).or cur.reverse.getLast? = some g := rfl
              rw [h2] at hc0
              injection hc0.symm
            subst this
            exact halast c0 hag
    | cons a2 as =>
      have hrestne : (a2 :: as) ≠ [] := by simp
      have hrestnice : ∀ x ∈ a2 :: as, NiceAtom x :=
        fun x hx => hnice x (List.mem_cons_of_mem a hx)
      have ha2 : NiceAtom a2 := hrestnice a2 (by simp)
      have hjhead : ∀ c0, (joinSpace (a2 :: as)).head? = some c0 → isWS c0 = false := by
        intro c0 hc0
        rw [joinSpace_head a2 as ha2.1] at hc0
        exact ha2.2.1 c0 hc0
      have hsplit0 : splitSentGo false lastP cur (joinSpace (a :: a2 :: as))
          = splitSentGo false (aLastP a lastP) (a.reverse ++ cur)
              (' ' :: joinSpace (a2 :: as)) := by
        rw [joinSpace_cons a (a2 :: as) hrestne]
        exact splitSentGo_through a lastP cur (' ' :: joinSpace (a2 :: as)) hachain
          (fun _ => hahead)
      by_cases hpunct : aLastP a lastP = true
      · obtain ⟨pieces2, heq2, hne2, hjoin2, hz2, hgood2⟩ :=
          ih hrestne hrestnice [] false
        refine ⟨(cur.reverse ++ a) :: pieces2, ?_, by simp, ?_, ?_, ?_⟩
        · rw [hsplit0, splitSentGo_false_cons, if_pos (by rw [hpunct]; rfl)]
          rw [List.reverse_append, List.reverse_reverse]
          rw [splitSentGo_skipExit (joinSpace (a2 :: as)) hjhead, heq2]
        · rw [joinSpace_cons _ pieces2 hne2, hjoin2]
          simp only [List.reverse_nil, List.nil_append]
          rw [joinSpace_cons a (a2 :: as) hrestne, List.append_assoc]
        · intro p hp
          rcases List.mem_cons.mp hp with hp | hp
          · subst hp
            intro hnil
            rcases List.append_eq_nil.mp hnil with ⟨-, h2⟩
            exact hane h2
          · exact hz2 p hp
        · intro hcur p hp
          rcases List.mem_cons.mp hp with hp | hp
          · subst hp
            constructor
            · intro c0 hc0
              rw [List.head?_append] at hc0
              cases hcr : cur.reverse.head? with
              | none =>
                rw [hcr] at hc0
                exact hahead c0 hc0
              | some d =>
                rw [hcr] at hc0
                have hd : c0 = d := by
                  have : (some d).or a.head? = some d := rfl
                  rw [this] at hc0
                  injection hc0.symm
                subst hd
                rw [List.head?_reverse] at hcr
                exact hcur c0 hcr
            · intro c0 hc0
              rw [List.getLast?_append] at hc0
              cases hag : a.getLast? with
              | none =>
                obtain ⟨x, xs, hx⟩ := List.exists_cons_of_ne_nil hane
                rw [hx] at hag
                exact absurd hag (by simp [List.getLast?_eq_none_iff])
              | some g =>
                rw [hag] at hc0
                have : c0 = g := by
                  have h2 : (some g).or cur.reverse.getLast? = some g := rfl
                  rw [h2] at hc0
                  injection hc0.symm
                subst this
                exact halast c0 hag
          · exact hgood2 (by simp) p hp
      · rw [Bool.not_eq_true] at hpunct
        obtain ⟨pieces2, heq2, hne2, hjoin2, hz2, hgood2⟩ :=
          ih hrestne hrestnice (' ' :: a.reverse ++ cur) false
        refine ⟨pieces2, ?_, hne2, ?_, hz2, ?_⟩
        · rw [hsplit0, splitSentGo_false_cons, if_neg (by rw [hpunct]; simp)]
          have hpsp : isPunct ' ' = false := rfl
          rw [hpsp]
          exact heq2
        · rw [hjoin2, joinSpace_cons a (a2 :: as) hrestne]
          simp only [List.reverse_append, List.reverse_cons, List.reverse_reverse,
            List.append_assoc, List.singleton_append, List.cons_append, List.nil_append]
        · intro hcur
          apply hgood2
          intro c0 hc0
          rw [show (' ' :: a.reverse ++ cur) = (' ' :: a.reverse) ++ cur from rfl,
            List.getLast?_append] at hc0
          cases hcg : cur.getLast? with
          | none =>
            rw [hcg] at hc0
            have hrne : a.reverse ≠ [] := by
              intro hr
              exact hane (by simpa using congrArg List.reverse hr)
            rw [show ((' ' :: a.reverse) : List Char).getLast? = a.reverse.getLast?
              from getLast?_cons_ne hrne, List.getLast?_reverse] at hc0
            have : Option.or none ((a.head?)) = a.head? := rfl
            rw [this] at hc0
            exact hahead c0 hc0
          | some d =>
            rw [hcg] at hc0
            have hd : c0 = d := by
              have : (some d).or (' ' :: a.reverse).getLast? = some d := rfl
              rw [this] at hc0
              injection hc0.symm
            subst hd
            exact hcur c0 hcg

theorem mem_joinSpace_length :
    ∀ (as : List (List Char)) (a : List Char), a ∈ as → a.length ≤ (joinSpace as).length
  | [], a, ha => absurd ha (by simp)
  | [b], a, ha => by
    rw [List.mem_singleton] at ha
    subst ha
    exact Nat.le_refl _
  | b :: b2 :: bs, a, ha => by
    rw [joinSpace_cons b (b2 :: bs) (by simp), List.length_append, List.length_cons]
    rcases List.mem_cons.mp ha with rfl | ha2
    · omega
    · have := mem_joinSpace_length (b2 :: bs) a ha2
      omega

theorem aggStep_buffer (cs : Nat) (buf : List (List Char)) (blen : Nat) (q : List Char)
    (h1 : ¬ cs < q.length) (h2 : blen + q.length + 1 ≤ cs) :
    aggStep cs ⟨[], buf, blen, 0⟩ q = ⟨[], buf ++ [q], blen + q.length + 1, 0⟩ := by
  unfold aggStep
  rw [if_neg h1, if_pos h2]

/-- Once the buffer already holds `acc`, feeding further sentences that
all fit keeps everything in the buffer and emits nothing. -/
theorem aggFold_allfit (cs : Nat) :
    ∀ (qs acc : List (List Char)), acc ≠ [] →
      (joinSpace (acc ++ qs)).length + 1 ≤ cs →
      (qs.foldl (aggStep cs) ⟨[], acc, (joinSpace acc).length + 1, 0⟩)
        = ⟨[], acc ++ qs, (joinSpace (acc ++ qs)).length + 1, 0⟩ := by
  intro qs
  induction qs with
  | nil =>
    intro acc _ _
    rw [List.foldl_nil, List.append_nil]
  | cons q qs ih =>
    intro acc hne hfit
    rw [List.foldl_cons]
    have hjoin : joinSpace (acc ++ q :: qs) = joinSpace acc ++ ' ' :: joinSpace (q :: qs) :=
      joinSpace_append acc (q :: qs) hne (by simp)
    have hq : q.length ≤ (joinSpace (q :: qs)).length :=
      mem_joinSpace_length (q :: qs) q (by simp)
    have hlen : (joinSpace (acc ++ q :: qs)).length
        = (joinSpace acc).length + 1 + (joinSpace (q :: qs)).length := by
      rw [hjoin, List.length_append, List.length_cons]
      omega
    have hbl : (joinSpace (acc ++ [q])).length = (joinSpace acc).length + 1 + q.length := by
      rw [joinSpace_append acc [q] hne (by simp), joinSpace_singleton,
        List.length_append, List.length_cons]
      omega
    have hstep : aggStep cs ⟨[], acc, (joinSpace acc).length + 1, 0⟩ q
        = ⟨[], acc ++ [q], (joinSpace (acc ++ [q])).length + 1, 0⟩ := by
      rw [aggStep_buffer cs acc ((joinSpace acc).length + 1) q (by omega) (by omega)]
      rw [show (joinSpace acc).length + 1 + q.length + 1
          = (joinSpace (acc ++ [q])).length + 1 from by rw [hbl]]
    rw [hstep]
    have hassoc : (acc ++ [q]) ++ qs = acc ++ q :: qs := by simp
    have := ih (acc ++ [q]) (by simp) (by rw [hassoc]; exact hfit)
    rw [this, hassoc]

/-- Greedy aggregation of sentences whose space-join (plus one) fits in
the bound yields exactly one chunk: the stripped join, at index 0. -/
theorem aggregateChunksPre_allfit (cs : Nat) (ps : List (List Char)) (hne : ps ≠ [])
    (hfit : (joinSpace ps).length + 1 ≤ cs) (hjne : strip (joinSpace ps) ≠ []) :
    aggregateChunksPre cs ps
      = [⟨strip (joinSpace ps), 0, (strip (joinSpace ps)).length⟩] := by
  obtain ⟨p, ps2, rfl⟩ := List.exists_cons_of_ne_nil hne
  unfold aggregateChunksPre
  rw [List.foldl_cons]
  have hq : p.length ≤ (joinSpace (p :: ps2)).length :=
    mem_joinSpace_length (p :: ps2) p (by simp)
  have hstep : aggStep cs ⟨[], [], 0, 0⟩ p = ⟨[], [p], (joinSpace [p]).length + 1, 0⟩ := by
    have h0 := aggStep_buffer cs [] 0 p (by omega) (by omega)
    rw [h0, joinSpace_singleton]
    rw [List.nil_append]
    rw [Nat.zero_add]
  rw [hstep]
  have hcons : ([p] : List (List Char)) ++ ps2 = p :: ps2 := rfl
  have hfold := aggFold_allfit cs ps2 [p] (by simp) (by rw [hcons]; exact hfit)
  rw [hcons] at hfold
  rw [hfold, emitBuffer_eq, if_neg (by simpa [List.isEmpty_iff] using hjne)]
  rfl

/-- On a chunk text (a join of atoms) the sentence splitter acts as a
pure re-partition: the surviving pieces are non-empty and re-join to
the original text. -/
theorem splitIntoSentences_of_isJoin {t : List Char} (h : IsJoin t) :
    splitIntoSentences t ≠ [] ∧ joinSpace (splitIntoSentences t) = t := by
  obtain ⟨atoms, hane, hnice, rfl⟩ := h
  obtain ⟨pieces, heq, hpiecesne, hjoin, hpne, hgood⟩ :=
    splitSentGo_join atoms hane hnice [] false
  have hgood2 := hgood (by intro c0 hc0; exact absurd hc0 (by simp))
  have hstrip : strip (joinSpace atoms) = joinSpace atoms :=
    (isJoin_facts ⟨atoms, hane, hnice, rfl⟩).2
  have hfix : splitIntoSentences (joinSpace atoms) = pieces := by
    unfold splitIntoSentences
    rw [hstrip]
    have hss : splitSentences (joinSpace atoms) = pieces := heq
    rw [hss]
    have hfilter : pieces.filter (fun s => !s.isEmpty && !(strip s).isEmpty) = pieces := by
      rw [List.filter_eq_self]
      intro p hp
      have h1 : p ≠ [] := hpne p hp
      have h2 : strip p = p := strip_eq_self_of (hgood2 p hp).1 (hgood2 p hp).2
      rw [Bool.and_eq_true]
      exact ⟨by simp [h1], by simp [h2, h1]⟩
    rw [hfilter]
    have hmap : pieces.map strip = pieces := by
      have hcg : pieces.map strip = pieces.map id :=
        List.map_congr_left
          (fun p hp => strip_eq_self_of (hgood2 p hp).1 (hgood2 p hp).2)
      rw [hcg, List.map_id]
    rw [hmap]
  rw [hfix]
  refine ⟨hpiecesne, ?_⟩
  simpa using hjoin

/-- C3 (amended): re-chunking the already-emitted text of a chunk with
the same `chunk_size_chars` reproduces exactly that one chunk (same
text, `char_len` = its length, index 0) — provided the chunk's text
length is STRICTLY below `chunk_size_chars`; at length exactly
`chunk_size_chars` idempotence can fail (see the counterexample). -/
theorem c3_rechunk_identity (cs minc : Nat) (t : List Char) (M : Chunk)
    (hM : M ∈ processText cs minc t) (hlen : M.text.length < cs) :
    processText cs minc M.text = [⟨M.text, 0, M.text.length⟩] := by
  rw [processText_eq] at hM
  by_cases hfall : (splitIntoSentences t).isEmpty
  · rw [if_pos hfall, List.mem_singleton] at hM
    subst hM
    show processText cs minc t = [⟨t, 0, t.length⟩]
    rw [processText_eq, if_pos hfall]
  · rw [if_neg hfall] at hM
    have hwf : ChunkWF cs M := by
      unfold aggregateSentencesToChunks mergeSmallChunks at hM
      have hpre := aggregateChunksPre_wf cs (splitIntoSentences t) (splitIntoSentences_nice t)
      exact (mergeSmallGo_wf cs minc _ [] (by simp) hpre.1).1 M hM
    obtain ⟨-, -, hjoin⟩ := hwf
    obtain ⟨hne, hjeq⟩ := splitIntoSentences_of_isJoin hjoin
    have hstrip : strip M.text = M.text := (isJoin_facts hjoin).2
    have htne : M.text ≠ [] := (isJoin_facts hjoin).1
    rw [processText_eq, if_neg (by simpa [List.isEmpty_iff] using hne)]
    unfold aggregateSentencesToChunks
    rw [aggregateChunksPre_allfit cs (splitIntoSentences M.text) hne
      (by rw [hjeq]; omega) (by rw [hjeq, hstrip]; exact htne)]
    rw [hjeq, hstrip]
    unfold mergeSmallChunks
    rfl

/-- C3 witness: a fresh chunk really is reproduced unchanged. -/
theorem c3_witness :
    processText 20 0 (Chunk.text ⟨lc "Ab. Cd.", 0, 7⟩)
      = [⟨Chunk.text ⟨lc "Ab. Cd.", 0, 7⟩, 0, (Chunk.text ⟨lc "Ab. Cd.", 0, 7⟩).length⟩] :=
  c3_rechunk_identity 20 0 (lc "Ab. Cd.") ⟨lc "Ab. Cd.", 0, 7⟩ (by decide) (by decide)

end SecondBrain
